import Mathlib

/-!
Verification of the hierarchical range index of the AI-inspection extension
(`src/ast-btree.ts` and the extension module).

The development shallowly embeds:

* `Range<T>` — an immutable closed interval carrying an injected comparator,
  with `contains` / `intersects` / `inside` / `compare` transcribed from the
  source.
* the ordered interval map that backs `RangeBinTree._children`.  The map is a
  `ts-treemap` `TreeMap` keyed by `Range` through its `Comparable.compare`
  method; it is modelled, following the contract assumed by the spec (§4.2,
  §4.3), as an association list sorted by `Range.compare` with
  compare-equal-key overwrite on `set`, compare-equal-key removal on `delete`,
  and `splitLower` / `splitHigher(…, false)` as the `≤ key` / `> key`
  sub-views.
* `RangeBinTree` with `addChild`, `find`, `removeIntersecting`,
  `replaceIntersecting` (the bidirectional early-terminating scan of
  `processIntersecting`), the diagnostics batch update of `checkCode`, and
  `findEnclosingBlock`.

Numbers (`number` in TypeScript) are modelled as `Int`; `vscode.Position` as a
pair of `Int`s with the line-then-character comparator of `VSCodeRange`.
-/

/-- The `Range<T>` class of `ast-btree.ts`: an immutable closed interval `[start; end]`
over `T` together with the injected comparator. -/
structure Range (T : Type) where
  start : T
  «end» : T
  comparator : T → T → Int

/-- Transcribes `Range.contains(n)`: `cmp(start, n) ≤ 0 && cmp(n, end) ≤ 0`. -/
def Range.contains {T : Type} (r : Range T) (n : T) : Bool :=
  decide (r.comparator r.start n ≤ 0) && decide (r.comparator n r.«end» ≤ 0)

/-- Transcribes `Range.intersects(range)`: `contains(range.start) || contains(range.end)`. -/
def Range.intersects {T : Type} (r other : Range T) : Bool :=
  r.contains other.start || r.contains other.«end»

/-- Transcribes `Range.inside(range)`: `cmp(start, range.start) ≥ 0 && cmp(end, range.end) ≤ 0`. -/
def Range.inside {T : Type} (r other : Range T) : Bool :=
  decide (r.comparator r.start other.start ≥ 0) &&
    decide (r.comparator r.«end» other.«end» ≤ 0)

/-- Transcribes `Range.compare(other)`: start components first, tie-broken by the ends. -/
def Range.compare {T : Type} (r other : Range T) : Int :=
  let comp1 := r.comparator r.start other.start
  if comp1 ≠ 0 then comp1 else r.comparator r.«end» other.«end»

/-- Transcribes `compareNumbers(a, b) = a - b`. -/
def compareNumbers (a b : Int) : Int := a - b

/-- The `NumberRange` subclass: a `Range<number>` with `compareNumbers` injected. -/
def NumberRange (s e : Int) : Range Int := ⟨s, e, compareNumbers⟩

/-- A `vscode.Position`: a line / character pair. -/
structure Pos where
  line : Int
  character : Int
deriving DecidableEq, Repr

/-- The comparator injected by `VSCodeRange`: lines first, then characters. -/
def posCmp (p1 p2 : Pos) : Int :=
  if p1.line ≠ p2.line then p1.line - p2.line else p1.character - p2.character

/-- The `VSCodeRange` subclass: a `Range<vscode.Position>` with `posCmp` injected. -/
def VSCodeRange (s e : Pos) : Range Pos := ⟨s, e, posCmp⟩

/-- The recursive range-indexed tree: a value, its interval, and the ordered
children map (`TreeMap<Range, RangeBinTree>`), modelled as a sorted
association list. -/
inductive RangeBinTree (T RType : Type) : Type where
  | mk : Range RType → T → List (Range RType × RangeBinTree T RType) → RangeBinTree T RType

namespace RangeBinTree

/-- The `range` getter. -/
def range {T R : Type} : RangeBinTree T R → Range R
  | .mk r _ _ => r

/-- The `node` getter. -/
def node {T R : Type} : RangeBinTree T R → T
  | .mk _ n _ => n

/-- The `children` getter (the entries of the children `TreeMap` in ascending
key order). -/
def children {T R : Type} : RangeBinTree T R → List (Range R × RangeBinTree T R)
  | .mk _ _ cs => cs

end RangeBinTree

/-! ### The ordered interval map primitive

`TreeMap<Range<RType>, β>` keyed through `Range.compare`, per the contract the
spec assumes for it: entries kept in ascending key order, `set` overwriting a
compare-equal key (last-write-wins), `delete` removing the compare-equal
entry, `splitLower(k)` the `≤ k` sub-view and `splitHigher(k, false)` the
`> k` sub-view. -/

/-- Models `TreeMap.set`: sorted insert, overwriting an entry whose key compares
equal. -/
def mapSet {R β : Type} : List (Range R × β) → Range R → β → List (Range R × β)
  | [], k, v => [(k, v)]
  | (k', v') :: rest, k, v =>
    if Range.compare k k' < 0 then (k, v) :: (k', v') :: rest
    else if Range.compare k k' = 0 then (k, v) :: rest
    else (k', v') :: mapSet rest k v

/-- Models `TreeMap.delete`: drop the entry whose key compares equal to `k`
(a no-op when no key compares equal). -/
def mapDelete {R β : Type} (m : List (Range R × β)) (k : Range R) :
    List (Range R × β) :=
  m.filter fun e => !(decide (Range.compare e.1 k = 0))

/-- Models `TreeMap.splitLower(k)` (inclusive): the sub-view of entries with key
`≤ k`. -/
def splitLower {R β : Type} (m : List (Range R × β)) (k : Range R) :
    List (Range R × β) :=
  m.filter fun e => decide (Range.compare e.1 k ≤ 0)

/-- Models `TreeMap.splitHigher(k, false)`: the sub-view of entries with key `> k`. -/
def splitHigher {R β : Type} (m : List (Range R × β)) (k : Range R) :
    List (Range R × β) :=
  m.filter fun e => decide (Range.compare e.1 k > 0)

/-- The continuation condition of both scans of `processIntersecting`: the
negation of the break function `!r.intersects(range) && !r.inside(range)`. -/
def matchesQ {R : Type} (k q : Range R) : Bool :=
  k.intersects q || k.inside q

/-- The entries visited by `processIntersecting(range, …)` when the visitor
does not mutate the map: walking the lower split view downwards from the
split point and then the higher split view upwards, each direction truncated
at the first entry that neither intersects nor is inside the query. -/
def intersectingEntries {R β : Type} (m : List (Range R × β)) (q : Range R) :
    List (Range R × β) :=
  ((splitLower m q).reverse).takeWhile (fun e => matchesQ e.1 q) ++
    (splitHigher m q).takeWhile (fun e => matchesQ e.1 q)

/-- Models `RangeBinTree.find` on a children map: the visited subtrees, in visit
order. -/
def mapFind {R β : Type} (m : List (Range R × β)) (q : Range R) : List β :=
  (intersectingEntries m q).map Prod.snd

/-- Models `RangeBinTree.removeIntersecting` on a children map.  The lower scan
deletes each visited entry from the live map; the higher split view is then
computed from the already-shrunk map and its visited entries are deleted in
turn. -/
def mapRemoveIntersecting {R β : Type} (m : List (Range R × β)) (q : Range R) :
    List (Range R × β) :=
  let lowVisited := ((splitLower m q).reverse).takeWhile fun e => matchesQ e.1 q
  let m1 := lowVisited.foldl (fun acc e => mapDelete acc e.1) m
  let highVisited := (splitHigher m1 q).takeWhile fun e => matchesQ e.1 q
  highVisited.foldl (fun acc e => mapDelete acc e.1) m1

namespace RangeBinTree

/-- Transcribes `addChild(range, child)`: insert a fresh leaf node at `range`'s key. -/
def addChild {T R : Type} (t : RangeBinTree T R) (r : Range R) (v : T) :
    RangeBinTree T R :=
  .mk t.range t.node (mapSet t.children r (.mk r v []))

/-- Transcribes `find(range)` on a node: the matching direct children, in scan order. -/
def find {T R : Type} (t : RangeBinTree T R) (q : Range R) :
    List (RangeBinTree T R) :=
  mapFind t.children q

/-- Transcribes `removeIntersecting(range)` on a node. -/
def removeIntersecting {T R : Type} (t : RangeBinTree T R) (q : Range R) :
    RangeBinTree T R :=
  .mk t.range t.node (mapRemoveIntersecting t.children q)

/-- Transcribes `replaceIntersecting(range, value)`: `removeIntersecting` then
`addChild`. -/
def replaceIntersecting {T R : Type} (t : RangeBinTree T R) (q : Range R)
    (v : T) : RangeBinTree T R :=
  (t.removeIntersecting q).addChild q v

end RangeBinTree

/-! ### The diagnostics batch update of `checkCode`

`checkCode` maps each reported finding to an optional `VSCodeRange` (resolving
the reported snippet against the text of the reported line, `undefined` when
the snippet is not found), then runs `removeIntersecting` on the diagnostics
tree for every resolved range, and only afterwards `addChild`s every resolved
range with its diagnostic. -/

/-- One parsed model report: `{issue, description, location:{line, snippet}}`
(the `issue` field is unused by the diagnostics path). -/
structure Finding where
  line : Int
  snippet : String
  description : String

/-- Models `String.prototype.indexOf` on character lists: the first index at which
`pat` occurs in `hay` (`some 0` for the empty pattern, as in JavaScript). -/
def listIndexOf : List Char → List Char → Option Nat
  | hay, pat =>
    if pat.isPrefixOf hay then some 0
    else
      match hay with
      | [] => none
      | _ :: t => (listIndexOf t pat).map (· + 1)

/-- Models `lineText.indexOf(snippet)` (as `Option Nat` rather than `-1` for
"not found"). -/
def strIndexOf (s pat : String) : Option Nat :=
  listIndexOf s.data pat.data

/-- Models `doc.getText(new vscode.Range(line, 0, line, MAX_SAFE_INTEGER))`: the text
of the given 0-based line, the empty string when the line is outside the
document. -/
def lineTextOf (lines : List String) (ln : Int) : String :=
  if 0 ≤ ln then lines.getD ln.toNat "" else ""

/-- Resolving one finding to a diagnostic range: `line = location.line - 1`,
first literal occurrence of the snippet on that line, spanning the snippet's
length; `none` when the snippet is not found. -/
def resolveFinding (lines : List String) (f : Finding) : Option (Range Pos) :=
  let line := f.line - 1
  match strIndexOf (lineTextOf lines line) f.snippet with
  | none => none
  | some offset =>
      some (VSCodeRange ⟨line, (offset : Int)⟩
        ⟨line, (offset : Int) + (f.snippet.length : Int)⟩)

/-- The batch update of the diagnostics tree on resolved ranges:
`ranges.forEach(r => tree.removeIntersecting(r))` followed by
`ranges.forEach((range, i) => tree.addChild(range, diag[i]))`. -/
def batchUpdate {T R : Type} (t : RangeBinTree T R)
    (rds : List (Range R × T)) : RangeBinTree T R :=
  let t1 := rds.foldl (fun acc rd => acc.removeIntersecting rd.1) t
  rds.foldl (fun acc rd => acc.addChild rd.1 rd.2) t1

/-- The same batch update on optional ranges: unresolved findings (`undefined`
entries of `ranges`) are skipped by both passes. -/
def checkCodeApply {T R : Type} (t : RangeBinTree T R)
    (rds : List (Option (Range R × T))) : RangeBinTree T R :=
  let t1 := rds.foldl
    (fun acc o => match o with
      | some rd => acc.removeIntersecting rd.1
      | none => acc) t
  rds.foldl
    (fun acc o => match o with
      | some rd => acc.addChild rd.1 rd.2
      | none => acc) t1

/-- The diagnostics part of one `checkCode` batch: resolve every finding of
the response, then remove-then-add over the resolved ranges (diagnostic
values modelled by their `description`). -/
def batchProcess (lines : List String) (t : RangeBinTree String Pos)
    (fs : List Finding) : RangeBinTree String Pos :=
  checkCodeApply t
    (fs.map fun f => (resolveFinding lines f).map fun r => (r, f.description))

/-! ### `findEnclosingBlock`

The loop descends from the root: `enclosings = tree.find(range)`, then while
the result is non-empty it takes `enclosings[0]`, breaks when that node has no
children or the query is not inside its interval, records
`(grabParentBlock ? node.parent : node) || undefined` whenever the node's type
is `'block'`, and recurses with `treeNode.find(range)`.  The loop always
strictly descends, so it is modelled with explicit fuel; the characterisation
below holds for every fuel value. -/

/-- The `while` loop of `findEnclosingBlock`, with `acc` the running
`result`. -/
def febLoop {V R : Type} (parentOf : V → Option V) (isBlock : V → Bool)
    (childCount : V → Nat) (grab : Bool) (q : Range R) :
    Nat → List (RangeBinTree V R) → Option V → Option V
  | 0, _, acc => acc
  | _ + 1, [], acc => acc
  | fuel + 1, tn :: _, acc =>
    if childCount tn.node == 0 || !(q.inside tn.range) then acc
    else
      febLoop parentOf isBlock childCount grab q fuel (tn.find q)
        (if isBlock tn.node then (if grab then parentOf tn.node else some tn.node)
         else acc)

/-- Transcribes `findEnclosingBlock(tree, range, grabParentBlock)`. -/
def findEnclosingBlock {V R : Type} (parentOf : V → Option V)
    (isBlock : V → Bool) (childCount : V → Nat) (fuel : Nat)
    (t : RangeBinTree V R) (q : Range R) (grab : Bool) : Option V :=
  febLoop parentOf isBlock childCount grab q fuel (t.find q) none

/-- The chain of nodes accepted by the descent: the head of each successive
`find` result, as long as it has children and the query is inside its
interval. -/
def febChain {V R : Type} (childCount : V → Nat) (q : Range R) :
    Nat → List (RangeBinTree V R) → List (RangeBinTree V R)
  | 0, _ => []
  | _ + 1, [] => []
  | fuel + 1, tn :: _ =>
    if childCount tn.node == 0 || !(q.inside tn.range) then []
    else tn :: febChain childCount q fuel (tn.find q)

/-! ### The comparator contract

The spec's data model (§3) requires the injected comparator to induce a total
preorder.  Two laws capture this: sign antisymmetry and transitivity of the
non-strict relation. -/

/-- A comparator's sign is antisymmetric (`cmp(x, y)` and `cmp(y, x)` are
negatives of each other); this also forces `cmp(x, x) = 0`. -/
def CmpAntisym {T : Type} (cmp : T → T → Int) : Prop :=
  ∀ x y, cmp x y = -cmp y x

/-- A comparator's non-strict relation is transitive. -/
def CmpTrans {T : Type} (cmp : T → T → Int) : Prop :=
  ∀ x y z, cmp x y ≤ 0 → cmp y z ≤ 0 → cmp x z ≤ 0

/-- Every key of the map carries the shared comparator. -/
def SharedCmp {T β : Type} (cmp : T → T → Int)
    (m : List (Range T × β)) : Prop :=
  ∀ e ∈ m, (e.1).comparator = cmp

/-- Every key is a well-formed interval (`cmp(start, end) ≤ 0`). -/
def WellFormedKeys {T β : Type} (cmp : T → T → Int)
    (m : List (Range T × β)) : Prop :=
  ∀ e ∈ m, cmp e.1.start e.1.«end» ≤ 0

/-- The map's entries are in strictly ascending `Range.compare` order (the
`TreeMap` representation invariant). -/
def MapSorted {T β : Type} (m : List (Range T × β)) : Prop :=
  m.Pairwise fun a b => Range.compare a.1 b.1 < 0

/-- The sibling invariant of the spec (§3): an earlier sibling lies entirely
to the left of a later one. -/
def SiblingsDisjoint {T β : Type} (cmp : T → T → Int)
    (m : List (Range T × β)) : Prop :=
  m.Pairwise fun a b => cmp a.1.«end» b.1.start < 0

section CmpFacts

variable {T : Type} {cmp : T → T → Int}

lemma cmp_refl (hA : CmpAntisym cmp) (x : T) : cmp x x = 0 := by
  have h := hA x x; omega

lemma cmp_flip_le (hA : CmpAntisym cmp) {x y : T} (h : cmp x y ≤ 0) :
    0 ≤ cmp y x := by
  have h2 := hA x y; omega

lemma cmp_flip_lt (hA : CmpAntisym cmp) {x y : T} (h : cmp x y < 0) :
    0 < cmp y x := by
  have h2 := hA x y; omega

lemma cmp_flip_eq (hA : CmpAntisym cmp) {x y : T} (h : cmp x y = 0) :
    cmp y x = 0 := by
  have h2 := hA x y; omega

lemma cmp_lt_of_lt_of_le (hA : CmpAntisym cmp) (hT : CmpTrans cmp) {x y z : T}
    (h1 : cmp x y < 0) (h2 : cmp y z ≤ 0) : cmp x z < 0 := by
  by_contra h
  push_neg at h
  have hzx : cmp z x ≤ 0 := by have := hA x z; omega
  have := hT y z x h2 hzx
  have := hA x y
  omega

lemma cmp_lt_of_le_of_lt (hA : CmpAntisym cmp) (hT : CmpTrans cmp) {x y z : T}
    (h1 : cmp x y ≤ 0) (h2 : cmp y z < 0) : cmp x z < 0 := by
  by_contra h
  push_neg at h
  have hzx : cmp z x ≤ 0 := by have := hA x z; omega
  have := hT z x y hzx h1
  have := hA y z
  omega

lemma cmp_le_congr_left (hA : CmpAntisym cmp) (hT : CmpTrans cmp) {x x' : T}
    (h : cmp x x' = 0) (z : T) : cmp x z ≤ 0 ↔ cmp x' z ≤ 0 := by
  constructor
  · intro hx
    exact hT x' x z (by have := hA x x'; omega) hx
  · intro hx
    exact hT x x' z (le_of_eq h) hx

lemma cmp_le_congr_right (hA : CmpAntisym cmp) (hT : CmpTrans cmp) {y y' : T}
    (h : cmp y y' = 0) (z : T) : cmp z y ≤ 0 ↔ cmp z y' ≤ 0 := by
  constructor
  · intro hz
    exact hT z y y' hz (le_of_eq h)
  · intro hz
    exact hT z y' y hz (by have := hA y y'; omega)

end CmpFacts

section RangeCmpFacts

variable {T : Type} {cmp : T → T → Int}

/-- Unfolding `matchesQ` to arithmetic over the key's comparator. -/
lemma matchesQ_iff {k q : Range T} (hk : k.comparator = cmp) :
    matchesQ k q = true ↔
      ((cmp k.start q.start ≤ 0 ∧ cmp q.start k.«end» ≤ 0) ∨
        (cmp k.start q.«end» ≤ 0 ∧ cmp q.«end» k.«end» ≤ 0) ∨
        (0 ≤ cmp k.start q.start ∧ cmp k.«end» q.«end» ≤ 0)) := by
  simp [matchesQ, Range.intersects, Range.contains, Range.inside, hk,
    Bool.or_eq_true, Bool.and_eq_true, decide_eq_true_eq, ge_iff_le, or_assoc]

lemma matchesQ_false_iff {k q : Range T} (hk : k.comparator = cmp) :
    matchesQ k q = false ↔
      ¬((cmp k.start q.start ≤ 0 ∧ cmp q.start k.«end» ≤ 0) ∨
        (cmp k.start q.«end» ≤ 0 ∧ cmp q.«end» k.«end» ≤ 0) ∨
        (0 ≤ cmp k.start q.start ∧ cmp k.«end» q.«end» ≤ 0)) := by
  rw [← matchesQ_iff hk, Bool.not_eq_true, Bool.eq_false_iff, ne_eq,
    Bool.not_eq_true]

lemma rangeCompare_eq_ite {a b : Range T} :
    Range.compare a b =
      if a.comparator a.start b.start = 0 then a.comparator a.«end» b.«end»
      else a.comparator a.start b.start := by
  simp only [Range.compare]
  split_ifs with h1 h2 <;> simp_all

lemma rangeCompare_le_cases {a b : Range T} (ha : a.comparator = cmp)
    (h : Range.compare a b ≤ 0) :
    cmp a.start b.start < 0 ∨
      (cmp a.start b.start = 0 ∧ cmp a.«end» b.«end» ≤ 0) := by
  rw [rangeCompare_eq_ite, ha] at h
  by_cases h0 : cmp a.start b.start = 0
  · right; simpa [h0] using h
  · left; simp only [h0, if_false] at h; omega

lemma rangeCompare_pos_cases {a b : Range T} (ha : a.comparator = cmp)
    (h : 0 < Range.compare a b) :
    0 < cmp a.start b.start ∨
      (cmp a.start b.start = 0 ∧ 0 < cmp a.«end» b.«end») := by
  rw [rangeCompare_eq_ite, ha] at h
  by_cases h0 : cmp a.start b.start = 0
  · right; simpa [h0] using h
  · left; simp only [h0, if_false] at h; omega

lemma rangeCompare_eq_zero_iff {a b : Range T} (ha : a.comparator = cmp) :
    Range.compare a b = 0 ↔
      cmp a.start b.start = 0 ∧ cmp a.«end» b.«end» = 0 := by
  rw [rangeCompare_eq_ite, ha]
  by_cases h0 : cmp a.start b.start = 0 <;> simp [h0]

lemma rangeCompare_antisym (hA : CmpAntisym cmp) {a b : Range T}
    (ha : a.comparator = cmp) (hb : b.comparator = cmp) :
    Range.compare a b = -Range.compare b a := by
  rw [rangeCompare_eq_ite, rangeCompare_eq_ite, ha, hb]
  have h1 := hA a.start b.start
  have h2 := hA a.«end» b.«end»
  by_cases h0 : cmp a.start b.start = 0
  · have : cmp b.start a.start = 0 := by omega
    simp [h0, this, h2]
  · have : ¬cmp b.start a.start = 0 := by omega
    simp [h0, this, h1]

lemma rangeCompare_refl (hA : CmpAntisym cmp) {a : Range T}
    (ha : a.comparator = cmp) : Range.compare a a = 0 := by
  rw [rangeCompare_eq_zero_iff ha]
  exact ⟨cmp_refl hA _, cmp_refl hA _⟩

lemma rangeCompare_neg_iff {a b : Range T} (ha : a.comparator = cmp) :
    Range.compare a b < 0 ↔
      (cmp a.start b.start < 0 ∨
        (cmp a.start b.start = 0 ∧ cmp a.«end» b.«end» < 0)) := by
  rw [rangeCompare_eq_ite, ha]
  by_cases h0 : cmp a.start b.start = 0 <;> simp [h0]

lemma rangeCompare_lt_of_lt_of_le (hA : CmpAntisym cmp) (hT : CmpTrans cmp)
    {a b c : Range T} (ha : a.comparator = cmp) (hb : b.comparator = cmp)
    (h1 : Range.compare a b < 0) (h2 : Range.compare b c ≤ 0) :
    Range.compare a c < 0 := by
  rw [rangeCompare_neg_iff ha]
  rcases (rangeCompare_neg_iff ha).mp h1 with hs | ⟨hs, he⟩
  · rcases rangeCompare_le_cases hb h2 with hs' | ⟨hs', he'⟩
    · exact Or.inl (cmp_lt_of_lt_of_le hA hT hs (le_of_lt hs'))
    · exact Or.inl (cmp_lt_of_lt_of_le hA hT hs (le_of_eq hs'))
  · rcases rangeCompare_le_cases hb h2 with hs' | ⟨hs', he'⟩
    · exact Or.inl (cmp_lt_of_le_of_lt hA hT (le_of_eq hs) hs')
    · have w1 := cmp_flip_eq hA hs
      have w2 := cmp_flip_eq hA hs'
      have u : cmp a.start c.start ≤ 0 := hT _ _ _ (le_of_eq hs) (le_of_eq hs')
      have v : cmp c.start a.start ≤ 0 := hT _ _ _ (le_of_eq w2) (le_of_eq w1)
      have w := hA a.start c.start
      exact Or.inr ⟨by omega, cmp_lt_of_lt_of_le hA hT he he'⟩

lemma rangeCompare_lt_of_le_of_lt (hA : CmpAntisym cmp) (hT : CmpTrans cmp)
    {a b c : Range T} (ha : a.comparator = cmp) (hb : b.comparator = cmp)
    (h1 : Range.compare a b ≤ 0) (h2 : Range.compare b c < 0) :
    Range.compare a c < 0 := by
  rw [rangeCompare_neg_iff ha]
  rcases rangeCompare_le_cases ha h1 with hs | ⟨hs, he⟩
  · rcases (rangeCompare_neg_iff hb).mp h2 with hs' | ⟨hs', he'⟩
    · exact Or.inl (cmp_lt_of_lt_of_le hA hT hs (le_of_lt hs'))
    · exact Or.inl (cmp_lt_of_lt_of_le hA hT hs (le_of_eq hs'))
  · rcases (rangeCompare_neg_iff hb).mp h2 with hs' | ⟨hs', he'⟩
    · exact Or.inl (cmp_lt_of_le_of_lt hA hT (le_of_eq hs) hs')
    · have w1 := cmp_flip_eq hA hs
      have w2 := cmp_flip_eq hA hs'
      have u : cmp a.start c.start ≤ 0 := hT _ _ _ (le_of_eq hs) (le_of_eq hs')
      have v : cmp c.start a.start ≤ 0 := hT _ _ _ (le_of_eq w2) (le_of_eq w1)
      have w := hA a.start c.start
      exact Or.inr ⟨by omega, cmp_lt_of_le_of_lt hA hT he he'⟩

/-- Keys that compare equal match the same queries. -/
lemma matchesQ_congr (hA : CmpAntisym cmp) (hT : CmpTrans cmp)
    {k k' q : Range T} (hk : k.comparator = cmp) (hk' : k'.comparator = cmp)
    (h : Range.compare k k' = 0) : matchesQ k q = matchesQ k' q := by
  rcases (rangeCompare_eq_zero_iff hk).mp h with ⟨hs, he⟩
  have A1 := cmp_le_congr_left hA hT hs q.start
  have A2 := cmp_le_congr_left hA hT hs q.«end»
  have A3 := cmp_le_congr_right hA hT he q.start
  have A4 := cmp_le_congr_right hA hT he q.«end»
  have A5 := cmp_le_congr_right hA hT hs q.start
  have A6 := cmp_le_congr_left hA hT he q.«end»
  have B1 := hA k.start q.start
  have B2 := hA k'.start q.start
  rw [Bool.eq_iff_iff, matchesQ_iff hk, matchesQ_iff hk']
  omega

end RangeCmpFacts

/-! ### Generic list lemmas for the truncated scans -/

section ListFacts

variable {α : Type}

/-- If every element matching the predicate is preceded only by matching
elements (failures propagate forward), the truncated scan visits exactly the
matching elements. -/
lemma takeWhile_eq_filter_of_pairwise (p : α → Bool) :
    ∀ l : List α, (l.Pairwise fun a b => p b = true → p a = true) →
      l.takeWhile p = l.filter p
  | [], _ => rfl
  | a :: t, h => by
    rcases List.pairwise_cons.mp h with ⟨ha, ht⟩
    cases hpa : p a with
    | true =>
      simp only [List.takeWhile_cons, List.filter_cons, hpa, if_true]
      rw [takeWhile_eq_filter_of_pairwise p t ht]
    | false =>
      have hnil : t.filter p = [] := by
        rw [List.filter_eq_nil_iff]
        intro b hb hpb
        exact absurd (ha b hb hpb) (by simp [hpa])
      simp [List.takeWhile_cons, List.filter_cons, hpa, hnil]

/-- A scan truncated at the first failure visits nothing when every element
fails. -/
lemma takeWhile_eq_nil_of_all_false (p : α → Bool) {l : List α}
    (h : ∀ x ∈ l, p x = false) : l.takeWhile p = [] := by
  cases l with
  | nil => rfl
  | cons a t =>
    simp [List.takeWhile_cons, h a (List.mem_cons_self a t)]

/-- The element at which a truncated scan stopped fails the predicate. -/
lemma dropWhile_head_false (p : α → Bool) :
    ∀ (l : List α) {x : α} {t : List α}, l.dropWhile p = x :: t → p x = false
  | [], x, t => by simp [List.dropWhile]
  | a :: l, x, t => by
    intro h
    by_cases hpa : p a = true
    · rw [List.dropWhile_cons_of_pos hpa] at h
      exact dropWhile_head_false p l h
    · rw [List.dropWhile_cons_of_neg hpa] at h
      cases h
      simpa using hpa

/-- Concatenating the filtrations by two mutually exclusive predicates is a
permutation of filtering by their disjunction. -/
lemma filter_append_filter_perm (p r : α → Bool)
    (hpr : ∀ x, ¬(p x = true ∧ r x = true)) :
    ∀ l : List α,
      (l.filter p ++ l.filter r).Perm (l.filter fun x => p x || r x)
  | [] => by simp
  | a :: t => by
    by_cases hpa : p a = true
    · have hra : r a = false := by
        by_contra hcon
        simp only [Bool.not_eq_false] at hcon
        exact hpr a ⟨hpa, hcon⟩
      simp only [List.filter_cons, hpa, hra, Bool.true_or, if_true,
        Bool.false_eq_true, if_false, List.cons_append]
      exact (filter_append_filter_perm p r hpr t).cons a
    · simp only [Bool.not_eq_true] at hpa
      by_cases hra : r a = true
      · simp only [List.filter_cons, hpa, hra, Bool.false_or, if_true,
          Bool.false_eq_true, if_false]
        refine List.Perm.trans List.perm_middle ?_
        exact (filter_append_filter_perm p r hpr t).cons a
      · simp only [Bool.not_eq_true] at hra
        simp only [List.filter_cons, hpa, hra, Bool.false_or,
          Bool.false_eq_true, if_false]
        exact filter_append_filter_perm p r hpr t

end ListFacts

/-- Folding `TreeMap.delete` over a list of visited entries removes exactly
the entries whose key compares equal to some visited key. -/
lemma foldl_mapDelete_eq_filter {T β : Type} :
    ∀ (vs : List (Range T × β)) (m : List (Range T × β)),
      vs.foldl (fun acc e => mapDelete acc e.1) m =
        m.filter fun e => vs.all fun v => !(decide (Range.compare e.1 v.1 = 0))
  | [], m => by simp
  | v :: vs, m => by
    rw [List.foldl_cons, foldl_mapDelete_eq_filter vs (mapDelete m v.1)]
    unfold mapDelete
    rw [List.filter_filter]
    apply List.filter_congr
    intro e _
    simp [Bool.and_comm]

section ScanMachinery

variable {T β : Type} {cmp : T → T → Int}

lemma rangeCompare_nonpos_iff {a b : Range T} (ha : a.comparator = cmp) :
    Range.compare a b ≤ 0 ↔
      (cmp a.start b.start < 0 ∨
        (cmp a.start b.start = 0 ∧ cmp a.«end» b.«end» ≤ 0)) := by
  rw [rangeCompare_eq_ite, ha]
  by_cases h0 : cmp a.start b.start = 0 <;> simp [h0] <;> omega

lemma rangeCompare_le_trans (hA : CmpAntisym cmp) (hT : CmpTrans cmp)
    {a b c : Range T} (ha : a.comparator = cmp) (hb : b.comparator = cmp)
    (h1 : Range.compare a b ≤ 0) (h2 : Range.compare b c ≤ 0) :
    Range.compare a c ≤ 0 := by
  rw [rangeCompare_nonpos_iff ha]
  rcases rangeCompare_le_cases ha h1 with hs | ⟨hs, he⟩
  · rcases rangeCompare_le_cases hb h2 with hs' | ⟨hs', he'⟩
    · exact Or.inl (cmp_lt_of_lt_of_le hA hT hs (le_of_lt hs'))
    · exact Or.inl (cmp_lt_of_lt_of_le hA hT hs (le_of_eq hs'))
  · rcases rangeCompare_le_cases hb h2 with hs' | ⟨hs', he'⟩
    · exact Or.inl (cmp_lt_of_le_of_lt hA hT (le_of_eq hs) hs')
    · have w1 := cmp_flip_eq hA hs
      have w2 := cmp_flip_eq hA hs'
      have u : cmp a.start c.start ≤ 0 := hT _ _ _ (le_of_eq hs) (le_of_eq hs')
      have v : cmp c.start a.start ≤ 0 := hT _ _ _ (le_of_eq w2) (le_of_eq w1)
      have w := hA a.start c.start
      exact Or.inr ⟨by omega, hT _ _ _ he he'⟩

/-- Core of the lower scan's early termination: under the sibling invariant,
if a sibling at or below the split point fails the match predicate, every
sibling to its left fails it as well. -/
lemma lower_propagate (hA : CmpAntisym cmp) (hT : CmpTrans cmp)
    {a b q : Range T} (ha : a.comparator = cmp) (hb : b.comparator = cmp)
    (hwfa : cmp a.start a.«end» ≤ 0) (hwfb : cmp b.start b.«end» ≤ 0)
    (hwfq : cmp q.start q.«end» ≤ 0)
    (hdisj : cmp a.«end» b.start < 0)
    (hbq : Range.compare b q ≤ 0)
    (hMb : matchesQ b q = false) : matchesQ a q = false := by
  rw [matchesQ_false_iff hb] at hMb
  rcases rangeCompare_le_cases hb hbq with hs | ⟨hs, he⟩
  · have hqsbe : ¬cmp q.start b.«end» ≤ 0 := by
      intro hcon
      exact hMb (Or.inl ⟨le_of_lt hs, hcon⟩)
    have hbeqs : cmp b.«end» q.start < 0 := by
      have := hA q.start b.«end»; omega
    have c1 : cmp a.«end» b.«end» < 0 := cmp_lt_of_lt_of_le hA hT hdisj hwfb
    have c2 : cmp a.«end» q.start < 0 :=
      cmp_lt_of_lt_of_le hA hT c1 (le_of_lt hbeqs)
    rw [matchesQ_false_iff ha]
    rintro (⟨u, v⟩ | ⟨u, v⟩ | ⟨u, v⟩)
    · have := hA q.start a.«end»; omega
    · have : cmp q.start a.«end» ≤ 0 := hT _ _ _ hwfq v
      have := hA q.start a.«end»; omega
    · have h1 : cmp q.start a.start ≤ 0 := by have := hA a.start q.start; omega
      have : cmp q.start a.«end» ≤ 0 := hT _ _ _ h1 hwfa
      have := hA q.start a.«end»; omega
  · exact absurd (Or.inr (Or.inr ⟨le_of_eq hs.symm, he⟩)) hMb

/-- Core of the higher scan's early termination: under the sibling invariant,
if a sibling above the split point fails the match predicate, every sibling
to its right fails it as well. -/
lemma higher_propagate (hA : CmpAntisym cmp) (hT : CmpTrans cmp)
    {a b q : Range T} (ha : a.comparator = cmp) (hb : b.comparator = cmp)
    (hwfa : cmp a.start a.«end» ≤ 0) (hwfb : cmp b.start b.«end» ≤ 0)
    (hwfq : cmp q.start q.«end» ≤ 0)
    (hdisj : cmp a.«end» b.start < 0)
    (haq : 0 < Range.compare a q)
    (hMa : matchesQ a q = false) : matchesQ b q = false := by
  rw [matchesQ_false_iff ha] at hMa
  rcases rangeCompare_pos_cases ha haq with hs | ⟨hs, he⟩
  · have hqeas : cmp q.«end» a.start < 0 := by
      by_contra hcon
      push_neg at hcon
      have h1 : cmp a.start q.«end» ≤ 0 := by have := hA a.start q.«end»; omega
      by_cases h2 : cmp q.«end» a.«end» ≤ 0
      · exact hMa (Or.inr (Or.inl ⟨h1, h2⟩))
      · push_neg at h2
        have h3 : cmp a.«end» q.«end» ≤ 0 := by have := hA a.«end» q.«end»; omega
        exact hMa (Or.inr (Or.inr ⟨le_of_lt hs, h3⟩))
    have c1 : cmp q.«end» a.«end» < 0 := cmp_lt_of_lt_of_le hA hT hqeas hwfa
    have c2 : cmp q.«end» b.start < 0 :=
      cmp_lt_of_lt_of_le hA hT c1 (le_of_lt hdisj)
    have c3 : cmp q.start b.start < 0 := cmp_lt_of_le_of_lt hA hT hwfq c2
    rw [matchesQ_false_iff hb]
    rintro (⟨u, v⟩ | ⟨u, v⟩ | ⟨u, v⟩)
    · have := hA b.start q.start; omega
    · have := hA b.start q.«end»; omega
    · have c4 : cmp q.«end» b.«end» < 0 := cmp_lt_of_lt_of_le hA hT c2 hwfb
      have := hA b.«end» q.«end»; omega
  · exact absurd
      (Or.inl ⟨le_of_eq hs, hT _ _ _ (le_of_eq (cmp_flip_eq hA hs)) hwfa⟩) hMa

end ScanMachinery

/-- The ambient invariants of a children map (spec §3): keys share the
comparator, are well-formed, are strictly sorted by `Range.compare` (the
`TreeMap` representation invariant), and pairwise disjoint consistently with
that order. -/
def MapInv {T β : Type} (cmp : T → T → Int) (m : List (Range T × β)) : Prop :=
  SharedCmp cmp m ∧ WellFormedKeys cmp m ∧ MapSorted m ∧ SiblingsDisjoint cmp m

section Exactness

variable {T β : Type} {cmp : T → T → Int}

lemma mapInv_filter (p : Range T × β → Bool) {m : List (Range T × β)}
    (h : MapInv cmp m) : MapInv cmp (m.filter p) := by
  obtain ⟨h1, h2, h3, h4⟩ := h
  refine ⟨fun e he => h1 e (List.mem_of_mem_filter he),
    fun e he => h2 e (List.mem_of_mem_filter he),
    h3.sublist (List.filter_sublist m), h4.sublist (List.filter_sublist m)⟩

lemma splitLower_pairwise_imp (hA : CmpAntisym cmp) (hT : CmpTrans cmp)
    {m : List (Range T × β)} {q : Range T} (hinv : MapInv cmp m)
    (hwfq : cmp q.start q.«end» ≤ 0) :
    (splitLower m q).Pairwise
      fun a b => matchesQ a.1 q = true → matchesQ b.1 q = true := by
  obtain ⟨hsh, hwf, _, hdisj⟩ := hinv
  have hd : (splitLower m q).Pairwise fun a b => cmp a.1.«end» b.1.start < 0 :=
    hdisj.sublist (List.filter_sublist m)
  refine hd.imp_of_mem ?_
  intro a b hma hmb hab hMa
  by_contra hMb
  rw [Bool.not_eq_true] at hMb
  have hbq : Range.compare b.1 q ≤ 0 := by
    have := (List.mem_filter.mp hmb).2
    simpa using this
  have := lower_propagate hA hT (hsh a (List.mem_of_mem_filter hma))
    (hsh b (List.mem_of_mem_filter hmb))
    (hwf a (List.mem_of_mem_filter hma))
    (hwf b (List.mem_of_mem_filter hmb)) hwfq hab hbq hMb
  rw [hMa] at this
  cases this

lemma splitHigher_pairwise_imp (hA : CmpAntisym cmp) (hT : CmpTrans cmp)
    {m : List (Range T × β)} {q : Range T} (hinv : MapInv cmp m)
    (hwfq : cmp q.start q.«end» ≤ 0) :
    (splitHigher m q).Pairwise
      fun a b => matchesQ b.1 q = true → matchesQ a.1 q = true := by
  obtain ⟨hsh, hwf, _, hdisj⟩ := hinv
  have hd : (splitHigher m q).Pairwise fun a b => cmp a.1.«end» b.1.start < 0 :=
    hdisj.sublist (List.filter_sublist m)
  refine hd.imp_of_mem ?_
  intro a b hma hmb hab hMb
  by_contra hMa
  rw [Bool.not_eq_true] at hMa
  have haq : 0 < Range.compare a.1 q := by
    have := (List.mem_filter.mp hma).2
    simpa using this
  have := higher_propagate hA hT (hsh a (List.mem_of_mem_filter hma))
    (hsh b (List.mem_of_mem_filter hmb))
    (hwf a (List.mem_of_mem_filter hma))
    (hwf b (List.mem_of_mem_filter hmb)) hwfq hab haq hMa
  rw [hMb] at this
  cases this

/-- The lower scan, truncated at its first non-match, visits exactly the
matching entries of the lower split view (in descending order). -/
lemma lower_takeWhile_eq (hA : CmpAntisym cmp) (hT : CmpTrans cmp)
    {m : List (Range T × β)} {q : Range T} (hinv : MapInv cmp m)
    (hwfq : cmp q.start q.«end» ≤ 0) :
    ((splitLower m q).reverse).takeWhile (fun e => matchesQ e.1 q) =
      ((splitLower m q).filter fun e => matchesQ e.1 q).reverse := by
  rw [← List.filter_reverse]
  apply takeWhile_eq_filter_of_pairwise
  rw [List.pairwise_reverse]
  exact splitLower_pairwise_imp hA hT hinv hwfq

/-- The higher scan, truncated at its first non-match, visits exactly the
matching entries of the higher split view (in ascending order). -/
lemma higher_takeWhile_eq (hA : CmpAntisym cmp) (hT : CmpTrans cmp)
    {m : List (Range T × β)} {q : Range T} (hinv : MapInv cmp m)
    (hwfq : cmp q.start q.«end» ≤ 0) :
    (splitHigher m q).takeWhile (fun e => matchesQ e.1 q) =
      (splitHigher m q).filter fun e => matchesQ e.1 q := by
  apply takeWhile_eq_filter_of_pairwise
  exact splitHigher_pairwise_imp hA hT hinv hwfq

/-- Under the invariants, the visited entries are the matching entries below
the split point in descending order followed by the matching entries above it
in ascending order. -/
lemma intersectingEntries_eq (hA : CmpAntisym cmp) (hT : CmpTrans cmp)
    {m : List (Range T × β)} {q : Range T} (hinv : MapInv cmp m)
    (hwfq : cmp q.start q.«end» ≤ 0) :
    intersectingEntries m q =
      ((splitLower m q).filter fun e => matchesQ e.1 q).reverse ++
        ((splitHigher m q).filter fun e => matchesQ e.1 q) := by
  unfold intersectingEntries
  rw [lower_takeWhile_eq hA hT hinv hwfq, higher_takeWhile_eq hA hT hinv hwfq]

/-- Under the invariants, the visited entries are a permutation of all the
matching entries. -/
lemma intersectingEntries_perm (hA : CmpAntisym cmp) (hT : CmpTrans cmp)
    {m : List (Range T × β)} {q : Range T} (hinv : MapInv cmp m)
    (hwfq : cmp q.start q.«end» ≤ 0) :
    (intersectingEntries m q).Perm (m.filter fun e => matchesQ e.1 q) := by
  rw [intersectingEntries_eq hA hT hinv hwfq]
  refine List.Perm.trans
    (List.Perm.append ((splitLower m q).filter _).reverse_perm (List.Perm.refl _)) ?_
  unfold splitLower splitHigher
  rw [List.filter_filter, List.filter_filter]
  refine List.Perm.trans
    (filter_append_filter_perm _ _ (fun e => by simp; omega) m) ?_
  apply List.Perm.of_eq
  apply List.filter_congr
  intro e _
  by_cases hm : matchesQ e.1 q = true <;> simp [hm] <;> omega

end Exactness

section RemoveExact

variable {T β : Type} {cmp : T → T → Int}

/-- Pointwise description of surviving the deletions of the lower scan. -/
lemma lowDelete_pointwise (hA : CmpAntisym cmp) (hT : CmpTrans cmp)
    {m : List (Range T × β)} {q : Range T} (hinv : MapInv cmp m)
    {e : Range T × β} (he : e ∈ m) :
    (((splitLower m q).filter fun v => matchesQ v.1 q).reverse.all
        fun v => !(decide (Range.compare e.1 v.1 = 0))) =
      !(decide (Range.compare e.1 q ≤ 0) && matchesQ e.1 q) := by
  obtain ⟨hsh, hwf, hsort, hdisj⟩ := hinv
  rw [Bool.eq_iff_iff]
  simp only [List.all_eq_true, List.mem_reverse, Bool.not_eq_eq_eq_not,
    Bool.not_true, decide_eq_false_iff_not, Bool.not_and, Bool.or_eq_true,
    Bool.not_eq_true', decide_eq_false_iff_not, Bool.not_eq_true]
  constructor
  · intro hall
    by_cases hle : Range.compare e.1 q ≤ 0
    · by_cases hM : matchesQ e.1 q = true
      · exfalso
        have hmem : e ∈ (splitLower m q).filter fun v => matchesQ v.1 q := by
          refine List.mem_filter.mpr ⟨List.mem_filter.mpr ⟨he, by simpa⟩, hM⟩
        exact hall e hmem (rangeCompare_refl hA (hsh e he))
      · right; simpa using hM
    · left; exact hle
  · intro hn v hv
    intro heq
    have hvm0 : v ∈ splitLower m q := List.mem_of_mem_filter hv
    have hvm : v ∈ m := List.mem_of_mem_filter hvm0
    have hvle : Range.compare v.1 q ≤ 0 := by
      have := (List.mem_filter.mp hvm0).2; simpa using this
    have hvM : matchesQ v.1 q = true := (List.mem_filter.mp hv).2
    have hele : Range.compare e.1 q ≤ 0 :=
      rangeCompare_le_trans hA hT (hsh e he) (hsh v hvm) (le_of_eq heq) hvle
    have heM : matchesQ e.1 q = true := by
      rw [matchesQ_congr hA hT (hsh e he) (hsh v hvm) heq]; exact hvM
    rcases hn with h | h
    · exact h hele
    · rw [heM] at h; cases h

/-- The map after the lower scan's deletions: exactly the matching entries at
or below the split point are gone. -/
lemma lowDelete_eq (hA : CmpAntisym cmp) (hT : CmpTrans cmp)
    {m : List (Range T × β)} {q : Range T} (hinv : MapInv cmp m)
    (hwfq : cmp q.start q.«end» ≤ 0) :
    ((((splitLower m q).reverse).takeWhile fun e => matchesQ e.1 q).foldl
        (fun acc e => mapDelete acc e.1) m) =
      m.filter fun e => !(decide (Range.compare e.1 q ≤ 0) && matchesQ e.1 q) := by
  rw [lower_takeWhile_eq hA hT hinv hwfq, foldl_mapDelete_eq_filter]
  exact List.filter_congr fun e he => lowDelete_pointwise hA hT hinv he

/-- The lower scan's deletions do not change the higher split view. -/
lemma splitHigher_after_lowDelete {m : List (Range T × β)} {q : Range T} :
    splitHigher
        (m.filter fun e => !(decide (Range.compare e.1 q ≤ 0) && matchesQ e.1 q)) q =
      splitHigher m q := by
  unfold splitHigher
  rw [List.filter_filter]
  apply List.filter_congr
  intro e _
  by_cases h : Range.compare e.1 q > 0
  · have h2 : ¬Range.compare e.1 q ≤ 0 := by omega
    simp [h, h2]
  · simp [h]

/-- Under the invariants, `removeIntersecting` is exact: exactly the matching entries
are removed. -/
lemma mapRemoveIntersecting_eq_filter (hA : CmpAntisym cmp) (hT : CmpTrans cmp)
    {m : List (Range T × β)} {q : Range T} (hinv : MapInv cmp m)
    (hwfq : cmp q.start q.«end» ≤ 0) :
    mapRemoveIntersecting m q = m.filter fun e => !(matchesQ e.1 q) := by
  obtain ⟨hsh, hwf, hsort, hdisj⟩ := id hinv
  unfold mapRemoveIntersecting
  show (List.takeWhile (fun e => matchesQ e.1 q)
      (splitHigher
        (List.foldl (fun acc e => mapDelete acc e.1) m
          (List.takeWhile (fun e => matchesQ e.1 q) (splitLower m q).reverse)) q)).foldl
      (fun acc e => mapDelete acc e.1)
      (List.foldl (fun acc e => mapDelete acc e.1) m
        (List.takeWhile (fun e => matchesQ e.1 q) (splitLower m q).reverse)) =
    m.filter fun e => !(matchesQ e.1 q)
  rw [lowDelete_eq hA hT hinv hwfq, splitHigher_after_lowDelete,
    higher_takeWhile_eq hA hT hinv hwfq, foldl_mapDelete_eq_filter,
    List.filter_filter]
  apply List.filter_congr
  intro e he
  rw [Bool.eq_iff_iff]
  simp only [Bool.and_eq_true, List.all_eq_true, Bool.not_eq_eq_eq_not,
    Bool.not_true, decide_eq_false_iff_not, Bool.not_and, Bool.or_eq_true,
    Bool.not_eq_true', Bool.not_eq_true]
  constructor
  · rintro ⟨hall, h1⟩
    by_cases hM : matchesQ e.1 q = true
    · exfalso
      have hgt : Range.compare e.1 q > 0 := by
        rcases h1 with h | h
        · omega
        · rw [hM] at h; cases h
      have hmem : e ∈ (splitHigher m q).filter fun v => matchesQ v.1 q := by
        refine List.mem_filter.mpr ⟨List.mem_filter.mpr ⟨he, by simpa⟩, hM⟩
      exact hall e hmem (rangeCompare_refl hA (hsh e he))
    · simpa using hM
  · intro hM
    have hMf : matchesQ e.1 q = false := by simpa using hM
    refine ⟨?_, Or.inr hMf⟩
    intro v hv heq
    have hvm0 : v ∈ splitHigher m q := List.mem_of_mem_filter hv
    have hvm : v ∈ m := List.mem_of_mem_filter hvm0
    have hvM : matchesQ v.1 q = true := (List.mem_filter.mp hv).2
    have : matchesQ e.1 q = true := by
      rw [matchesQ_congr hA hT (hsh e he) (hsh v hvm) heq]; exact hvM
    rw [hMf] at this; cases this

end RemoveExact

section MapSetFacts

variable {T β : Type} {cmp : T → T → Int}

lemma filter_and {α : Type} (p r : α → Bool) :
    ∀ l : List α, (l.filter p).filter r = l.filter fun x => p x && r x
  | [] => rfl
  | a :: t => by
    by_cases hp : p a = true
    · by_cases hr : r a = true
      · simp [List.filter_cons, hp, hr, filter_and p r t]
      · simp only [Bool.not_eq_true] at hr
        simp [List.filter_cons, hp, hr, filter_and p r t]
    · simp only [Bool.not_eq_true] at hp
      simp [List.filter_cons, hp, filter_and p r t]

/-- The `set` operation always stores the new entry. -/
lemma mapSet_mem (m : List (Range T × β)) (k : Range T) (v : β) :
    (k, v) ∈ mapSet m k v := by
  induction m with
  | nil => simp [mapSet]
  | cons e rest ih =>
    unfold mapSet
    by_cases h1 : Range.compare k e.1 < 0
    · simp [h1]
    · by_cases h2 : Range.compare k e.1 = 0
      · simp [h1, h2]
      · simpa [h1, h2] using Or.inr ih

/-- The `set` operation keeps every entry whose key does not compare equal to the inserted
key. -/
lemma mapSet_mem_preserved {m : List (Range T × β)} {k : Range T} {v : β}
    {e : Range T × β} (he : e ∈ m) (hne : Range.compare k e.1 ≠ 0) :
    e ∈ mapSet m k v := by
  induction m with
  | nil => cases he
  | cons f rest ih =>
    unfold mapSet
    rcases List.mem_cons.mp he with rfl | he'
    · by_cases h1 : Range.compare k e.1 < 0
      · simp [h1]
      · simp [h1, hne]
    · by_cases h1 : Range.compare k f.1 < 0
      · simp [h1, List.mem_cons, he']
      · by_cases h2 : Range.compare k f.1 = 0
        · simp [h1, h2, he']
        · simpa [h1, h2] using Or.inr (ih he')

/-- On a sorted map with no key comparing equal to the inserted one, `set`
splits the map at the insertion point. -/
lemma mapSet_sorted_split (hA : CmpAntisym cmp) (hT : CmpTrans cmp)
    {q : Range T} (hq : q.comparator = cmp) (v : β) :
    ∀ {m : List (Range T × β)}, SharedCmp cmp m → MapSorted m →
      (∀ e ∈ m, Range.compare q e.1 ≠ 0) →
      ∃ A B, m = A ++ B ∧ mapSet m q v = A ++ (q, v) :: B ∧
        (∀ a ∈ A, 0 < Range.compare q a.1) ∧
        (∀ b ∈ B, Range.compare q b.1 < 0)
  | [], _, _, _ => ⟨[], [], by simp [mapSet]⟩
  | e :: rest, hsh, hsort, hne => by
    rcases List.pairwise_cons.mp hsort with ⟨hrel, hsort'⟩
    by_cases h1 : Range.compare q e.1 < 0
    · refine ⟨[], e :: rest, by simp, by simp [mapSet, h1], by simp, ?_⟩
      intro b hb
      rcases List.mem_cons.mp hb with rfl | hb'
      · exact h1
      · exact rangeCompare_lt_of_lt_of_le hA hT hq
          (hsh e (List.mem_cons_self e rest)) h1 (le_of_lt (hrel b hb'))
    · have h2 : Range.compare q e.1 ≠ 0 := hne e (List.mem_cons_self e rest)
      have h3 : 0 < Range.compare q e.1 := by omega
      obtain ⟨A, B, hAB, hset, hA', hB'⟩ :=
        mapSet_sorted_split hA hT hq v
          (fun f hf => hsh f (List.mem_cons_of_mem e hf)) hsort'
          (fun f hf => hne f (List.mem_cons_of_mem e hf))
      refine ⟨e :: A, B, by simp [hAB], ?_, ?_, hB'⟩
      · show mapSet (e :: rest) q v = e :: (A ++ (q, v) :: B)
        unfold mapSet
        simp [h1, h2, hset]
      · intro a ha
        rcases List.mem_cons.mp ha with rfl | ha'
        · exact h3
        · exact hA' a ha'

end MapSetFacts

/-- Restates `removeIntersecting` as a plain (`let`-free) equation. -/
lemma mapRemoveIntersecting_def {T β : Type} (m : List (Range T × β))
    (q : Range T) :
    mapRemoveIntersecting m q =
      ((splitHigher
          ((((splitLower m q).reverse).takeWhile fun e => matchesQ e.1 q).foldl
            (fun acc e => mapDelete acc e.1) m) q).takeWhile
          fun e => matchesQ e.1 q).foldl (fun acc e => mapDelete acc e.1)
        ((((splitLower m q).reverse).takeWhile fun e => matchesQ e.1 q).foldl
          (fun acc e => mapDelete acc e.1) m) := rfl

section RemoveThenFind

variable {T β : Type} {cmp : T → T → Int}

/-- After `removeIntersecting`, both truncated scans of a subsequent `find`
with the same query stop at once: each scan stopped at a non-matching entry,
the deletions removed only entries comparing equal to visited (hence
matching) ones, and compare-equal keys match the same queries — so the entry
each scan stopped at is still there and still fails first. -/
lemma mapFind_after_remove (hA : CmpAntisym cmp) (hT : CmpTrans cmp)
    {m : List (Range T × β)} {q : Range T} (hsh : SharedCmp cmp m) :
    mapFind (mapRemoveIntersecting m q) q = [] := by
  have Mf : Range T × β → Bool := fun e => matchesQ e.1 q
  rw [mapRemoveIntersecting_def, foldl_mapDelete_eq_filter,
    foldl_mapDelete_eq_filter]
  have hVm : ∀ v ∈ ((splitLower m q).reverse).takeWhile
      (fun e => matchesQ e.1 q), v ∈ m := by
    intro v hv
    have h1 := (List.takeWhile_sublist _).mem hv
    rw [List.mem_reverse] at h1
    exact List.mem_of_mem_filter h1
  have hVM : ∀ v ∈ ((splitLower m q).reverse).takeWhile
      (fun e => matchesQ e.1 q), matchesQ v.1 q = true := by
    intro v hv
    have h := List.mem_takeWhile_imp hv
    simpa using h
  set s1 : Range T × β → Bool := fun e =>
    (((splitLower m q).reverse).takeWhile fun e => matchesQ e.1 q).all
      fun v => !(decide (Range.compare e.1 v.1 = 0)) with hs1
  have hVhm : ∀ w ∈ (splitHigher (m.filter s1) q).takeWhile
      (fun e => matchesQ e.1 q), w ∈ m := by
    intro w hw
    have h1 := (List.takeWhile_sublist _).mem hw
    exact List.mem_of_mem_filter (List.mem_of_mem_filter h1)
  have hVhM : ∀ w ∈ (splitHigher (m.filter s1) q).takeWhile
      (fun e => matchesQ e.1 q), matchesQ w.1 q = true := by
    intro w hw
    have h := List.mem_takeWhile_imp hw
    simpa using h
  set s2 : Range T × β → Bool := fun e =>
    ((splitHigher (m.filter s1) q).takeWhile fun e => matchesQ e.1 q).all
      fun v => !(decide (Range.compare e.1 v.1 = 0)) with hs2
  rw [filter_and]
  set s12 : Range T × β → Bool := fun e => s1 e && s2 e with hs12
  unfold mapFind intersectingEntries
  have partA : ((splitLower (m.filter s12) q).reverse).takeWhile
      (fun e => matchesQ e.1 q) = [] := by
    have e1 : splitLower (m.filter s12) q = (splitLower m q).filter s12 := by
      unfold splitLower
      rw [filter_and, filter_and]
      exact List.filter_congr fun x _ => Bool.and_comm _ _
    rw [e1, ← List.filter_reverse,
      ← List.takeWhile_append_dropWhile
        (p := fun e => matchesQ e.1 q) (l := (splitLower m q).reverse),
      List.filter_append]
    have hVnil : (((splitLower m q).reverse).takeWhile
        (fun e => matchesQ e.1 q)).filter s12 = [] := by
      rw [List.filter_eq_nil_iff]
      intro v hv
      have hrefl : Range.compare v.1 v.1 = 0 :=
        rangeCompare_refl hA (hsh v (hVm v hv))
      have h1 : s1 v = false := by
        rw [Bool.eq_false_iff]
        intro hall
        rw [hs1, List.all_eq_true] at hall
        have := hall v hv
        simp only [Bool.not_eq_eq_eq_not, Bool.not_true,
          decide_eq_false_iff_not] at this
        exact this hrefl
      simp [hs12, h1]
    rw [hVnil, List.nil_append]
    cases hR : ((splitLower m q).reverse).dropWhile
        (fun e => matchesQ e.1 q) with
    | nil => simp
    | cons r0 R' =>
      have hMr0 : matchesQ r0.1 q = false :=
        dropWhile_head_false _ (splitLower m q).reverse hR
      have hr0m : r0 ∈ m := by
        have h1 : r0 ∈ ((splitLower m q).reverse).dropWhile
            (fun e => matchesQ e.1 q) := by rw [hR]; exact List.mem_cons_self _ _
        have h2 := (List.dropWhile_sublist _).mem h1
        rw [List.mem_reverse] at h2
        exact List.mem_of_mem_filter h2
      have hs12r0 : s12 r0 = true := by
        have h1 : s1 r0 = true := by
          rw [hs1, List.all_eq_true]
          intro v hv
          simp only [Bool.not_eq_eq_eq_not, Bool.not_true,
            decide_eq_false_iff_not]
          intro heq
          have := matchesQ_congr (q := q) hA hT (hsh r0 hr0m)
            (hsh v (hVm v hv)) heq
          rw [hMr0, hVM v hv] at this
          cases this
        have h2 : s2 r0 = true := by
          rw [hs2, List.all_eq_true]
          intro v hv
          simp only [Bool.not_eq_eq_eq_not, Bool.not_true,
            decide_eq_false_iff_not]
          intro heq
          have := matchesQ_congr (q := q) hA hT (hsh r0 hr0m)
            (hsh v (hVhm v hv)) heq
          rw [hMr0, hVhM v hv] at this
          cases this
        simp [hs12, h1, h2]
      simp [List.filter_cons, hs12r0, List.takeWhile_cons, hMr0]
  have partB : (splitHigher (m.filter s12) q).takeWhile
      (fun e => matchesQ e.1 q) = [] := by
    have e2 : splitHigher (m.filter s12) q =
        (splitHigher (m.filter s1) q).filter s2 := by
      unfold splitHigher
      rw [filter_and, filter_and, filter_and]
      apply List.filter_congr
      intro x _
      cases h1 : s1 x <;> cases h2 : s2 x <;>
        cases h3 : decide (Range.compare x.1 q > 0) <;> simp [hs12, h1, h2]
    rw [e2,
      ← List.takeWhile_append_dropWhile
        (p := fun e => matchesQ e.1 q) (l := splitHigher (m.filter s1) q),
      List.filter_append]
    have hVhnil : ((splitHigher (m.filter s1) q).takeWhile
        (fun e => matchesQ e.1 q)).filter s2 = [] := by
      rw [List.filter_eq_nil_iff]
      intro v hv
      have hrefl : Range.compare v.1 v.1 = 0 :=
        rangeCompare_refl hA (hsh v (hVhm v hv))
      rw [Bool.not_eq_true, Bool.eq_false_iff]
      intro hall
      rw [hs2, List.all_eq_true] at hall
      have := hall v hv
      simp only [Bool.not_eq_eq_eq_not, Bool.not_true,
        decide_eq_false_iff_not] at this
      exact this hrefl
    rw [hVhnil, List.nil_append]
    cases hR : (splitHigher (m.filter s1) q).dropWhile
        (fun e => matchesQ e.1 q) with
    | nil => simp
    | cons r0 R' =>
      have hMr0 : matchesQ r0.1 q = false :=
        dropWhile_head_false _ (splitHigher (m.filter s1) q) hR
      have hr0m : r0 ∈ m := by
        have h1 : r0 ∈ (splitHigher (m.filter s1) q).dropWhile
            (fun e => matchesQ e.1 q) := by rw [hR]; exact List.mem_cons_self _ _
        have h2 := (List.dropWhile_sublist _).mem h1
        exact List.mem_of_mem_filter (List.mem_of_mem_filter h2)
      have hs2r0 : s2 r0 = true := by
        rw [hs2, List.all_eq_true]
        intro v hv
        simp only [Bool.not_eq_eq_eq_not, Bool.not_true,
          decide_eq_false_iff_not]
        intro heq
        have := matchesQ_congr (q := q) hA hT (hsh r0 hr0m)
          (hsh v (hVhm v hv)) heq
        rw [hMr0, hVhM v hv] at this
        cases this
      simp [List.filter_cons, hs2r0, List.takeWhile_cons, hMr0]
  rw [partA, partB]
  rfl

end RemoveThenFind

section TreeFacts

variable {T R : Type}

lemma RangeBinTree.eta (t : RangeBinTree T R) :
    RangeBinTree.mk t.range t.node t.children = t := by
  cases t; rfl

lemma foldl_removeIntersecting_eq (rds : List (Range R × T)) :
    ∀ t : RangeBinTree T R,
      rds.foldl (fun acc rd => acc.removeIntersecting rd.1) t =
        RangeBinTree.mk t.range t.node
          (rds.foldl (fun cs rd => mapRemoveIntersecting cs rd.1) t.children) := by
  induction rds with
  | nil => intro t; exact (RangeBinTree.eta t).symm
  | cons rd rds ih =>
    intro t
    rw [List.foldl_cons, List.foldl_cons, ih]
    rfl

lemma foldl_addChild_eq (rds : List (Range R × T)) :
    ∀ t : RangeBinTree T R,
      rds.foldl (fun acc rd => acc.addChild rd.1 rd.2) t =
        RangeBinTree.mk t.range t.node
          (rds.foldl (fun cs rd => mapSet cs rd.1 (.mk rd.1 rd.2 []))
            t.children) := by
  induction rds with
  | nil => intro t; exact (RangeBinTree.eta t).symm
  | cons rd rds ih =>
    intro t
    rw [List.foldl_cons, List.foldl_cons, ih]
    rfl

end TreeFacts

/-! ### The concrete comparators satisfy the contract -/

lemma compareNumbers_antisym : CmpAntisym compareNumbers := by
  intro x y
  unfold compareNumbers
  omega

lemma compareNumbers_trans : CmpTrans compareNumbers := by
  intro x y z h1 h2
  unfold compareNumbers at *
  omega

lemma posCmp_antisym : CmpAntisym posCmp := by
  intro p1 p2
  unfold posCmp
  rcases eq_or_ne p1.line p2.line with h | h
  · simp [h]
  · rw [if_pos h, if_pos (Ne.symm h)]
    omega

lemma posCmp_trans : CmpTrans posCmp := by
  intro x y z h1 h2
  unfold posCmp at *
  split_ifs at * <;> omega

/-- C4: for every node and every query interval `q` (over a comparator
obeying the documented total-preorder contract), `removeIntersecting(q)`
followed by `find(q)` on the same node returns an empty sequence. -/
theorem removeIntersecting_then_find_empty {T V : Type} (cmp : T → T → Int)
    (hA : CmpAntisym cmp) (hT : CmpTrans cmp)
    (t : RangeBinTree V T) (q : Range T)
    (hsh : SharedCmp cmp t.children) :
    (t.removeIntersecting q).find q = [] := by
  show mapFind (mapRemoveIntersecting t.children q) q = []
  exact mapFind_after_remove hA hT hsh

/-- Witness for C4 at a concrete tree and query. -/
theorem removeIntersecting_then_find_empty_witness :
    CmpAntisym compareNumbers ∧ CmpTrans compareNumbers ∧
      SharedCmp compareNumbers
        (RangeBinTree.mk (NumberRange 0 20) 0
          [(NumberRange 0 5, .mk (NumberRange 0 5) 1 []),
           (NumberRange 6 9, .mk (NumberRange 6 9) 2 [])]).children ∧
      ((RangeBinTree.mk (NumberRange 0 20) 0
          [(NumberRange 0 5, .mk (NumberRange 0 5) 1 []),
           (NumberRange 6 9, .mk (NumberRange 6 9) 2 [])]).removeIntersecting
            (NumberRange 3 7)).find (NumberRange 3 7) = [] := by
  refine ⟨compareNumbers_antisym, compareNumbers_trans, ?_, ?_⟩
  · intro e he
    fin_cases he <;> rfl
  · apply removeIntersecting_then_find_empty compareNumbers
      compareNumbers_antisym compareNumbers_trans
    intro e he
    fin_cases he <;> rfl

/-- The three-sibling tree of the spec's ordering example:
`[0,5], [6,9], [10,15]` under a parent `[0,20]`. -/
def c1Tree : RangeBinTree Nat Int :=
  .mk (NumberRange 0 20) 0
    [(NumberRange 0 5, .mk (NumberRange 0 5) 1 []),
     (NumberRange 6 9, .mk (NumberRange 6 9) 2 []),
     (NumberRange 10 15, .mk (NumberRange 10 15) 3 [])]

/-- The disjoint-sibling tree of the C1 counterexample:
`[0,1], [2,3], [4,5]` under a parent `[0,10]`. -/
def c1CexTree : RangeBinTree Nat Int :=
  .mk (NumberRange 0 10) 0
    [(NumberRange 0 1, .mk (NumberRange 0 1) 1 []),
     (NumberRange 2 3, .mk (NumberRange 2 3) 2 []),
     (NumberRange 4 5, .mk (NumberRange 4 5) 3 [])]

/-- C1 (amended): for every node whose children map satisfies the sibling
invariant (shared total-preorder comparator, well-formed keys, strictly
sorted, pairwise disjoint consistently with the key order) and whose entry
keys are the child nodes' own intervals, and for every **well-formed** query
interval `q`, `find(q)` returns exactly the direct children whose interval
intersects `q` or is inside it: the early-terminating bidirectional scan
misses no matching child and includes no non-matching child. -/
theorem find_returns_exactly_matching {T V : Type} (cmp : T → T → Int)
    (hA : CmpAntisym cmp) (hT : CmpTrans cmp)
    (t : RangeBinTree V T) (q : Range T)
    (hinv : MapInv cmp t.children)
    (hkey : ∀ e ∈ t.children, (e.2).range = e.1)
    (hwfq : cmp q.start q.«end» ≤ 0) :
    (t.find q).Perm
      ((t.children.filter fun e => matchesQ e.2.range q).map Prod.snd) := by
  have hfix : (t.children.filter fun e => matchesQ e.2.range q) =
      t.children.filter fun e => matchesQ e.1 q := by
    apply List.filter_congr
    intro e he
    rw [hkey e he]
  rw [hfix]
  show (mapFind t.children q).Perm _
  exact ((intersectingEntries_perm hA hT hinv hwfq).map Prod.snd)

/-- C1 counterexample: the siblings `[0,1], [2,3], [4,5]` satisfy the
invariant assumed by the claim (shared comparator, well-formed, sorted,
pairwise disjoint), and the child `[0,1]` matches the (malformed) query
`[4,1]` — it contains the query's end `1` — yet `find([4,1])` returns only
the `[4,5]` child: the claim is false for arbitrary (not well-formed)
queries. -/
theorem find_misses_matching_child_on_malformed_query :
    MapInv compareNumbers c1CexTree.children ∧
      (∀ e ∈ c1CexTree.children, (e.2).range = e.1) ∧
      matchesQ (NumberRange 0 1) (NumberRange 4 1) = true ∧
      (c1CexTree.find (NumberRange 4 1)).map RangeBinTree.node = [3] ∧
      (1 : Nat) ∉ (c1CexTree.find (NumberRange 4 1)).map RangeBinTree.node := by
  refine ⟨⟨?_, ?_, ?_, ?_⟩, ?_, by decide, by decide, by decide⟩
  · intro e he; fin_cases he <;> rfl
  · intro e he; fin_cases he <;> decide
  · unfold MapSorted; decide
  · unfold SiblingsDisjoint; decide
  · intro e he; fin_cases he <;> rfl

/-- Witness for C1 at the spec's example: siblings `[0,5], [6,9], [10,15]`,
query `[7,7]`; `find` returns exactly the `[6,9]` child. -/
theorem find_returns_exactly_matching_witness :
    MapInv compareNumbers c1Tree.children ∧
      compareNumbers 7 7 ≤ 0 ∧
      (c1Tree.find (NumberRange 7 7)).Perm
        ((c1Tree.children.filter
          fun e => matchesQ e.2.range (NumberRange 7 7)).map Prod.snd) ∧
      (c1Tree.find (NumberRange 7 7)).map RangeBinTree.node = [2] := by
  have hinv : MapInv compareNumbers c1Tree.children := by
    refine ⟨?_, ?_, ?_, ?_⟩
    · intro e he; fin_cases he <;> rfl
    · intro e he; fin_cases he <;> decide
    · unfold MapSorted; decide
    · unfold SiblingsDisjoint; decide
  have hkey : ∀ e ∈ c1Tree.children, (e.2).range = e.1 := by
    intro e he; fin_cases he <;> rfl
  have hperm := find_returns_exactly_matching compareNumbers
    compareNumbers_antisym compareNumbers_trans c1Tree (NumberRange 7 7)
    hinv hkey (by decide)
  refine ⟨hinv, by decide, hperm, ?_⟩
  have h2 := hperm.map RangeBinTree.node
  have h3 : (((c1Tree.children.filter
      fun e => matchesQ e.2.range (NumberRange 7 7)).map Prod.snd).map
        RangeBinTree.node) = [2] := by decide
  rw [h3] at h2
  exact List.perm_singleton.mp h2

/-- The two-sibling tree of the C9 counterexample: `[0,5], [6,9]` under a
parent `[0,20]`. -/
def c9CexTree : RangeBinTree Nat Int :=
  .mk (NumberRange 0 20) 0
    [(NumberRange 0 5, .mk (NumberRange 0 5) 1 []),
     (NumberRange 6 9, .mk (NumberRange 6 9) 2 [])]

/-- Keys at or below the split point precede keys above it in the total
order. -/
lemma rangeCompare_cross_lt {T : Type} {cmp : T → T → Int}
    (hA : CmpAntisym cmp) (hT : CmpTrans cmp) {x y q : Range T}
    (hx : x.comparator = cmp) (hy : y.comparator = cmp)
    (h1 : Range.compare x q ≤ 0) (h2 : 0 < Range.compare y q) :
    Range.compare x y < 0 := by
  rw [rangeCompare_neg_iff hx]
  rcases rangeCompare_le_cases hx h1 with hs | ⟨hs, he⟩ <;>
    rcases rangeCompare_pos_cases hy h2 with hs' | ⟨hs', he'⟩
  · have hqy : cmp q.start y.start < 0 := by have := hA y.start q.start; omega
    exact Or.inl (cmp_lt_of_lt_of_le hA hT hs (le_of_lt hqy))
  · have hqy : cmp q.start y.start = 0 := cmp_flip_eq hA hs'
    exact Or.inl (cmp_lt_of_lt_of_le hA hT hs (le_of_eq hqy))
  · have hqy : cmp q.start y.start < 0 := by have := hA y.start q.start; omega
    exact Or.inl (cmp_lt_of_le_of_lt hA hT (le_of_eq hs) hqy)
  · have hqy : cmp q.start y.start = 0 := cmp_flip_eq hA hs'
    have hu : cmp x.start y.start ≤ 0 := hT _ _ _ (le_of_eq hs) (le_of_eq hqy)
    have hv : cmp y.start x.start ≤ 0 :=
      hT _ _ _ (le_of_eq hs') (le_of_eq (cmp_flip_eq hA hs))
    have hw := hA x.start y.start
    have hqe : cmp q.«end» y.«end» < 0 := by have := hA y.«end» q.«end»; omega
    exact Or.inr ⟨by omega, cmp_lt_of_le_of_lt hA hT he hqe⟩

/-- Under the sibling invariant and for a well-formed query, at most one
matching child can lie at or below the split point: a second, earlier one
would have to end strictly before the split key starts and hence before the
query starts, so it could not match. -/
lemma lower_matches_length_le_one {T β : Type} {cmp : T → T → Int}
    (hA : CmpAntisym cmp) (hT : CmpTrans cmp)
    {m : List (Range T × β)} {q : Range T} (hinv : MapInv cmp m)
    (hwfq : cmp q.start q.«end» ≤ 0) :
    ((splitLower m q).filter fun e => matchesQ e.1 q).length ≤ 1 := by
  obtain ⟨hsh, hwf, hsort, hdisj⟩ := id hinv
  by_contra hlen
  push_neg at hlen
  rcases hlm : (splitLower m q).filter fun e => matchesQ e.1 q with
    _ | ⟨a, _ | ⟨b, rest⟩⟩
  · rw [hlm] at hlen; simp at hlen
  · rw [hlm] at hlen; simp at hlen
  · have hsubl : ((splitLower m q).filter fun e => matchesQ e.1 q).Sublist m :=
      (List.filter_sublist _).trans (List.filter_sublist _)
    have hpdisj : ((splitLower m q).filter fun e => matchesQ e.1 q).Pairwise
        fun x y => cmp x.1.«end» y.1.start < 0 := hdisj.sublist hsubl
    rw [hlm] at hpdisj
    have hab : cmp a.1.«end» b.1.start < 0 :=
      (List.pairwise_cons.mp hpdisj).1 b (List.mem_cons_self b rest)
    have hma : a ∈ (splitLower m q).filter fun e => matchesQ e.1 q := by
      rw [hlm]; exact List.mem_cons_self _ _
    have hmb : b ∈ (splitLower m q).filter fun e => matchesQ e.1 q := by
      rw [hlm]; exact List.mem_cons_of_mem a (List.mem_cons_self b rest)
    have ham : a ∈ m := hsubl.mem hma
    have hbm : b ∈ m := hsubl.mem hmb
    have hMa : matchesQ a.1 q = true := (List.mem_filter.mp hma).2
    have hbq : Range.compare b.1 q ≤ 0 := by
      have := (List.mem_filter.mp (List.mem_of_mem_filter hmb)).2
      simpa using this
    have hqsae : cmp q.start a.1.«end» ≤ 0 := by
      rw [matchesQ_iff (hsh a ham)] at hMa
      rcases hMa with ⟨_, h⟩ | ⟨_, h⟩ | ⟨h, _⟩
      · exact h
      · exact hT _ _ _ hwfq h
      · exact hT _ _ _ (by have := hA a.1.start q.start; omega) (hwf a ham)
    have hbsqs : cmp b.1.start q.start ≤ 0 := by
      rcases rangeCompare_le_cases (hsh b hbm) hbq with h | ⟨h, _⟩
      · exact le_of_lt h
      · exact le_of_eq h
    have : cmp a.1.«end» q.start < 0 := cmp_lt_of_lt_of_le hA hT hab hbsqs
    have := hA q.start a.1.«end»
    omega

/-- C9 (amended): under the sibling invariant and for a well-formed query,
`find(q)` returns first the matching children at or below the split point in
descending key order, then the matching children above it in ascending key
order.  However, at most ONE match can lie at or below the split point, so
(contrary to the original claim) the returned sequence is always globally
sorted in ascending key order; when a match at or below the split point
exists, it is the first element of the result — the greatest matching key
not exceeding `q`'s key. -/
theorem find_scan_order {T V : Type} (cmp : T → T → Int)
    (hA : CmpAntisym cmp) (hT : CmpTrans cmp)
    (t : RangeBinTree V T) (q : Range T)
    (hinv : MapInv cmp t.children)
    (hwfq : cmp q.start q.«end» ≤ 0) :
    t.find q =
        (((splitLower t.children q).filter
            fun e => matchesQ e.1 q).reverse).map Prod.snd ++
          ((splitHigher t.children q).filter
            fun e => matchesQ e.1 q).map Prod.snd ∧
      ((splitLower t.children q).filter fun e => matchesQ e.1 q).length ≤ 1 ∧
      (intersectingEntries t.children q).Pairwise
        (fun a b => Range.compare a.1 b.1 < 0) ∧
      (((splitLower t.children q).filter fun e => matchesQ e.1 q) ≠ [] →
        (intersectingEntries t.children q).head? =
          ((splitLower t.children q).filter
            fun e => matchesQ e.1 q).getLast?) := by
  obtain ⟨hsh, hwf, hsort, hdisj⟩ := id hinv
  have heq := intersectingEntries_eq hA hT hinv hwfq
  have hsublm : ((splitLower t.children q).filter
      fun e => matchesQ e.1 q).Sublist t.children :=
    (List.filter_sublist _).trans (List.filter_sublist _)
  have hsubhm : ((splitHigher t.children q).filter
      fun e => matchesQ e.1 q).Sublist t.children :=
    (List.filter_sublist _).trans (List.filter_sublist _)
  have hlm1 := lower_matches_length_le_one hA hT hinv hwfq
  refine ⟨?_, hlm1, ?_, ?_⟩
  · show mapFind t.children q = _
    unfold mapFind
    rw [heq, List.map_append]
  · rw [heq, List.pairwise_append]
    refine ⟨?_, hsort.sublist hsubhm, ?_⟩
    · rcases hlm : (splitLower t.children q).filter
          fun e => matchesQ e.1 q with _ | ⟨x, _ | ⟨y, rest⟩⟩
      · rw [hlm]; simp
      · rw [hlm]; simp
      · rw [hlm] at hlm1; simp at hlm1
    · intro x hx y hy
      rw [List.mem_reverse] at hx
      have hxm : x ∈ t.children := hsublm.mem hx
      have hym : y ∈ t.children := hsubhm.mem hy
      have hxq : Range.compare x.1 q ≤ 0 := by
        have := (List.mem_filter.mp (List.mem_of_mem_filter hx)).2
        simpa using this
      have hyq : 0 < Range.compare y.1 q := by
        have := (List.mem_filter.mp (List.mem_of_mem_filter hy)).2
        simpa using this
      exact rangeCompare_cross_lt hA hT (hsh x hxm) (hsh y hym) hxq hyq
  · intro hne
    rw [heq, ← List.head?_reverse]
    rcases hrev : ((splitLower t.children q).filter
        fun e => matchesQ e.1 q).reverse with _ | ⟨x, xs⟩
    · rw [List.reverse_eq_nil_iff] at hrev
      exact absurd hrev hne
    · rw [hrev]
      rfl

/-- Witness for C9 at the two-sided example `[0,5], [6,9]`, query `[3,8]`. -/
theorem find_scan_order_witness :
    MapInv compareNumbers c9CexTree.children ∧
      compareNumbers 3 8 ≤ 0 ∧
      (c9CexTree.find (NumberRange 3 8) =
          (((splitLower c9CexTree.children (NumberRange 3 8)).filter
              fun e => matchesQ e.1 (NumberRange 3 8)).reverse).map Prod.snd ++
            ((splitHigher c9CexTree.children (NumberRange 3 8)).filter
              fun e => matchesQ e.1 (NumberRange 3 8)).map Prod.snd ∧
        ((splitLower c9CexTree.children (NumberRange 3 8)).filter
          fun e => matchesQ e.1 (NumberRange 3 8)).length ≤ 1 ∧
        (intersectingEntries c9CexTree.children (NumberRange 3 8)).Pairwise
          (fun a b => Range.compare a.1 b.1 < 0) ∧
        (((splitLower c9CexTree.children (NumberRange 3 8)).filter
            fun e => matchesQ e.1 (NumberRange 3 8)) ≠ [] →
          (intersectingEntries c9CexTree.children (NumberRange 3 8)).head? =
            ((splitLower c9CexTree.children (NumberRange 3 8)).filter
              fun e => matchesQ e.1 (NumberRange 3 8)).getLast?)) := by
  have hinv : MapInv compareNumbers c9CexTree.children := by
    refine ⟨?_, ?_, ?_, ?_⟩
    · intro e he; fin_cases he <;> rfl
    · intro e he; fin_cases he <;> decide
    · unfold MapSorted; decide
    · unfold SiblingsDisjoint; decide
  exact ⟨hinv, by decide,
    find_scan_order compareNumbers compareNumbers_antisym
      compareNumbers_trans c9CexTree (NumberRange 3 8) hinv (by decide)⟩

/-- C9 counterexample: with siblings `[0,5], [6,9]` and query `[3,8]`,
matches exist on both sides of the split point, and yet the returned sequence
`[[0,5], [6,9]]` **is** globally sorted in ascending key order (only one
match lies at or below the split point). -/
theorem find_output_sorted_despite_both_sides :
    0 < ((splitLower c9CexTree.children (NumberRange 3 8)).filter
        fun e => matchesQ e.1 (NumberRange 3 8)).length ∧
      0 < ((splitHigher c9CexTree.children (NumberRange 3 8)).filter
        fun e => matchesQ e.1 (NumberRange 3 8)).length ∧
      (c9CexTree.find (NumberRange 3 8)).map RangeBinTree.node = [1, 2] ∧
      (intersectingEntries c9CexTree.children (NumberRange 3 8)).Chain'
        fun a b => Range.compare a.1 b.1 < 0 := by
  refine ⟨by decide, by decide, by decide, ?_⟩
  have hlist : intersectingEntries c9CexTree.children (NumberRange 3 8) =
      [(NumberRange 0 5, .mk (NumberRange 0 5) 1 []),
       (NumberRange 6 9, .mk (NumberRange 6 9) 2 [])] := rfl
  rw [hlist]
  exact List.chain'_cons.mpr ⟨by decide, List.chain'_singleton _⟩

/-- C6: `intersects` is not symmetric.  Whenever `B` contains both endpoints
of `A` while neither endpoint of `B` lies inside `A` (strict containment),
`A.intersects(B)` is `false` but `B.intersects(A)` is `true`, so there exist
intervals with `A.intersects(B) ≠ B.intersects(A)`. -/
theorem intersects_asymmetric {T : Type} (A B : Range T)
    (h1 : B.contains A.start = true) (h2 : B.contains A.«end» = true)
    (h3 : A.contains B.start = false) (h4 : A.contains B.«end» = false) :
    A.intersects B = false ∧ B.intersects A = true ∧
      A.intersects B ≠ B.intersects A := by
  unfold Range.intersects
  rw [h1, h3, h4]
  simp

/-- Witness for C6 at `A = [2,3]`, `B = [0,10]` over `compareNumbers`. -/
theorem intersects_asymmetric_witness :
    (NumberRange 0 10).contains (NumberRange 2 3).start = true ∧
      (NumberRange 0 10).contains (NumberRange 2 3).«end» = true ∧
      (NumberRange 2 3).contains (NumberRange 0 10).start = false ∧
      (NumberRange 2 3).contains (NumberRange 0 10).«end» = false ∧
      (NumberRange 2 3).intersects (NumberRange 0 10) = false ∧
      (NumberRange 0 10).intersects (NumberRange 2 3) = true ∧
      (NumberRange 2 3).intersects (NumberRange 0 10) ≠
        (NumberRange 0 10).intersects (NumberRange 2 3) := by
  refine ⟨by decide, by decide, by decide, by decide, ?_⟩
  exact intersects_asymmetric (NumberRange 2 3) (NumberRange 0 10)
    (by decide) (by decide) (by decide) (by decide)

/-- C7: every interval constructed with a comparator satisfying
`cmp(x, x) = 0` is inside itself and compares equal to itself. -/
theorem inside_self_and_compare_self {T : Type} (cmp : T → T → Int)
    (hrefl : ∀ x, cmp x x = 0) (s e : T) :
    (Range.mk s e cmp).inside (Range.mk s e cmp) = true ∧
      Range.compare (Range.mk s e cmp) (Range.mk s e cmp) = 0 := by
  constructor
  · simp [Range.inside, hrefl]
  · rw [rangeCompare_eq_ite]
    simp [hrefl]

/-- Witness for C7 at `A = [1,5]` over `compareNumbers`. -/
theorem inside_self_and_compare_self_witness :
    (∀ x : Int, compareNumbers x x = 0) ∧
      (NumberRange 1 5).inside (NumberRange 1 5) = true ∧
      Range.compare (NumberRange 1 5) (NumberRange 1 5) = 0 := by
  have hrefl : ∀ x : Int, compareNumbers x x = 0 := by
    intro x; unfold compareNumbers; omega
  exact ⟨hrefl, inside_self_and_compare_self compareNumbers hrefl 1 5⟩

/-- C3: `replaceIntersecting` is idempotent and has overwrite semantics.
Under the sibling invariant (spec §3) and for a well-formed query over the
shared comparator: (1) calling it twice with the same query interval and
value yields the same children map as calling it once; (2) one call replaces
exactly the matching children with a single fresh child at `q`; (3) the
result holds exactly one entry whose key compares equal to `q`, namely the
fresh child. -/
theorem replaceIntersecting_idempotent {T V : Type} (cmp : T → T → Int)
    (hA : CmpAntisym cmp) (hT : CmpTrans cmp)
    (t : RangeBinTree V T) (q : Range T) (v : V)
    (hinv : MapInv cmp t.children) (hq : q.comparator = cmp)
    (hwfq : cmp q.start q.«end» ≤ 0) :
    (t.replaceIntersecting q v).replaceIntersecting q v =
        t.replaceIntersecting q v ∧
      (t.replaceIntersecting q v).children =
        mapSet (t.children.filter fun e => !(matchesQ e.1 q)) q
          (.mk q v []) ∧
      ((t.replaceIntersecting q v).children.filter
          fun e => decide (Range.compare e.1 q = 0)) =
        [(q, RangeBinTree.mk q v [])] := by
  obtain ⟨hsh, hwf, hsort, hdisj⟩ := id hinv
  have hrem : mapRemoveIntersecting t.children q =
      t.children.filter fun e => !(matchesQ e.1 q) :=
    mapRemoveIntersecting_eq_filter hA hT hinv hwfq
  have hchil : (t.replaceIntersecting q v).children =
      mapSet (t.children.filter fun e => !(matchesQ e.1 q)) q (.mk q v []) := by
    show mapSet (mapRemoveIntersecting t.children q) q _ = _
    rw [hrem]
  have hDsub : (t.children.filter fun e => !(matchesQ e.1 q)).Sublist
      t.children := List.filter_sublist _
  have hDsh : SharedCmp cmp (t.children.filter fun e => !(matchesQ e.1 q)) :=
    fun e he => hsh e (hDsub.mem he)
  have hDsort : MapSorted (t.children.filter fun e => !(matchesQ e.1 q)) :=
    hsort.sublist hDsub
  have hDM : ∀ e ∈ t.children.filter fun e => !(matchesQ e.1 q),
      matchesQ e.1 q = false := by
    intro e he
    have := (List.mem_filter.mp he).2
    simpa using this
  have hnoeq : ∀ e ∈ t.children.filter fun e => !(matchesQ e.1 q),
      Range.compare q e.1 ≠ 0 := by
    intro e he hcon
    rcases (rangeCompare_eq_zero_iff hq).mp hcon with ⟨hs, he'⟩
    have hcontra : matchesQ e.1 q = true := by
      rw [matchesQ_iff (hDsh e he)]
      refine Or.inr (Or.inr ⟨?_, ?_⟩)
      · have := hA q.start e.1.start; omega
      · have := hA q.«end» e.1.«end»; omega
    rw [hDM e he] at hcontra
    cases hcontra
  obtain ⟨A, B, hAB, hset, hA', hB'⟩ :=
    mapSet_sorted_split hA hT hq (RangeBinTree.mk q v []) hDsh hDsort hnoeq
  have hmemA : ∀ a ∈ A, a ∈ t.children.filter fun e => !(matchesQ e.1 q) := by
    intro a ha; rw [hAB]; exact List.mem_append_left B ha
  have hmemB : ∀ b ∈ B, b ∈ t.children.filter fun e => !(matchesQ e.1 q) := by
    intro b hb; rw [hAB]; exact List.mem_append_right A hb
  have hAlt : ∀ a ∈ A, Range.compare a.1 q < 0 := by
    intro a ha
    have h1 := hA' a ha
    have h2 := rangeCompare_antisym hA (hDsh a (hmemA a ha)) hq
    omega
  have hBgt : ∀ b ∈ B, 0 < Range.compare b.1 q := by
    intro b hb
    have h1 := hB' b hb
    have h2 := rangeCompare_antisym hA (hDsh b (hmemB b hb)) hq
    omega
  have hqq : Range.compare q q = 0 := rangeCompare_refl hA hq
  have hMqq : matchesQ q q = true := by
    rw [matchesQ_iff hq]
    exact Or.inr (Or.inr
      ⟨le_of_eq (cmp_refl hA _).symm, le_of_eq (cmp_refl hA _)⟩)
  have hsplitL : splitLower (A ++ (q, RangeBinTree.mk q v []) :: B) q =
      A ++ [(q, RangeBinTree.mk q v [])] := by
    unfold splitLower
    rw [List.filter_append, List.filter_cons]
    have e1 : A.filter (fun e => decide (Range.compare e.1 q ≤ 0)) = A :=
      List.filter_eq_self.mpr fun a ha => by
        simpa using le_of_lt (hAlt a ha)
    have e2 : B.filter (fun e => decide (Range.compare e.1 q ≤ 0)) = [] :=
      List.filter_eq_nil_iff.mpr fun b hb => by
        have := hBgt b hb; simp; omega
    simp [e1, e2, hqq]
  have hrem2 : mapRemoveIntersecting
      (A ++ (q, RangeBinTree.mk q v []) :: B) q =
      t.children.filter fun e => !(matchesQ e.1 q) := by
    rw [mapRemoveIntersecting_def, hsplitL]
    have hrev : (A ++ [(q, RangeBinTree.mk q v [])]).reverse =
        (q, RangeBinTree.mk q v []) :: A.reverse := by
      rw [List.reverse_append]; rfl
    rw [hrev]
    have htw : List.takeWhile (fun e => matchesQ e.1 q)
        ((q, RangeBinTree.mk q v []) :: A.reverse) =
        [(q, RangeBinTree.mk q v [])] := by
      rw [List.takeWhile_cons]
      simp only [hMqq, if_true]
      rw [takeWhile_eq_nil_of_all_false]
      intro x hx
      rw [List.mem_reverse] at hx
      exact hDM x (hmemA x hx)
    rw [htw, List.foldl_cons, List.foldl_nil]
    have hdel : mapDelete (A ++ (q, RangeBinTree.mk q v []) :: B) q =
        A ++ B := by
      unfold mapDelete
      rw [List.filter_append, List.filter_cons]
      have e1 : A.filter (fun e => !(decide (Range.compare e.1 q = 0))) = A :=
        List.filter_eq_self.mpr fun a ha => by
          have := hAlt a ha; simp; omega
      have e2 : B.filter (fun e => !(decide (Range.compare e.1 q = 0))) = B :=
        List.filter_eq_self.mpr fun b hb => by
          have := hBgt b hb; simp; omega
      simp [e1, e2, hqq]
    rw [hdel, ← hAB]
    have hhv : List.takeWhile (fun e => matchesQ e.1 q)
        (splitHigher (t.children.filter fun e => !(matchesQ e.1 q)) q) = [] := by
      apply takeWhile_eq_nil_of_all_false
      intro x hx
      exact hDM x (List.mem_of_mem_filter hx)
    rw [hhv, List.foldl_nil]
  refine ⟨?_, hchil, ?_⟩
  · have hch1 : (t.replaceIntersecting q v).children =
        A ++ (q, RangeBinTree.mk q v []) :: B := by rw [hchil, hset]
    show RangeBinTree.mk (t.replaceIntersecting q v).range
        (t.replaceIntersecting q v).node
        (mapSet (mapRemoveIntersecting (t.replaceIntersecting q v).children q)
          q (RangeBinTree.mk q v [])) = t.replaceIntersecting q v
    rw [hch1, hrem2, hset, ← hch1]
    exact RangeBinTree.eta _
  · rw [hchil, hset, List.filter_append, List.filter_cons]
    have e1 : A.filter (fun e => decide (Range.compare e.1 q = 0)) = [] :=
      List.filter_eq_nil_iff.mpr fun a ha => by
        have := hAlt a ha; simp; omega
    have e2 : B.filter (fun e => decide (Range.compare e.1 q = 0)) = [] :=
      List.filter_eq_nil_iff.mpr fun b hb => by
        have := hBgt b hb; simp; omega
    simp [e1, e2, hqq]

/-- The two-sibling tree used by the C3 witness. -/
def c3Tree : RangeBinTree Nat Int :=
  .mk (NumberRange 0 20) 0
    [(NumberRange 0 5, .mk (NumberRange 0 5) 1 []),
     (NumberRange 6 9, .mk (NumberRange 6 9) 2 [])]

/-- Witness for C3 at siblings `[0,5], [6,9]`, query `[3,8]`, value `7`. -/
theorem replaceIntersecting_idempotent_witness :
    MapInv compareNumbers c3Tree.children ∧
      (NumberRange 3 8).comparator = compareNumbers ∧
      compareNumbers 3 8 ≤ 0 ∧
      ((c3Tree.replaceIntersecting (NumberRange 3 8) 7).replaceIntersecting
            (NumberRange 3 8) 7 =
          c3Tree.replaceIntersecting (NumberRange 3 8) 7 ∧
        (c3Tree.replaceIntersecting (NumberRange 3 8) 7).children =
          mapSet (c3Tree.children.filter
            fun e => !(matchesQ e.1 (NumberRange 3 8))) (NumberRange 3 8)
            (.mk (NumberRange 3 8) 7 []) ∧
        ((c3Tree.replaceIntersecting (NumberRange 3 8) 7).children.filter
            fun e => decide (Range.compare e.1 (NumberRange 3 8) = 0)) =
          [(NumberRange 3 8, RangeBinTree.mk (NumberRange 3 8) 7 [])]) := by
  have hinv : MapInv compareNumbers c3Tree.children := by
    refine ⟨?_, ?_, ?_, ?_⟩
    · intro e he; fin_cases he <;> rfl
    · intro e he; fin_cases he <;> decide
    · unfold MapSorted; decide
    · unfold SiblingsDisjoint; decide
  exact ⟨hinv, rfl, by decide,
    replaceIntersecting_idempotent compareNumbers compareNumbers_antisym
      compareNumbers_trans c3Tree (NumberRange 3 8) 7 hinv rfl (by decide)⟩

/-! ### The batch update (C2, C10) -/

/-- Iterated `removeIntersecting` over a batch of well-formed ranges removes
exactly the entries matching some range of the batch. -/
lemma foldl_mapRemove_eq_filter {T V : Type} {cmp : T → T → Int}
    (hA : CmpAntisym cmp) (hT : CmpTrans cmp) :
    ∀ (rds : List (Range T × V)) (m : List (Range T × RangeBinTree V T)),
      MapInv cmp m → (∀ rd ∈ rds, cmp rd.1.start rd.1.«end» ≤ 0) →
      rds.foldl (fun cs rd => mapRemoveIntersecting cs rd.1) m =
        m.filter fun e => rds.all fun rd => !(matchesQ e.1 rd.1)
  | [], m, _, _ => by simp
  | rd :: rds, m, hinv, hwf => by
    rw [List.foldl_cons,
      mapRemoveIntersecting_eq_filter hA hT hinv
        (hwf rd (List.mem_cons_self rd rds)),
      foldl_mapRemove_eq_filter hA hT rds _
        (mapInv_filter _ hinv)
        (fun r hr => hwf r (List.mem_cons_of_mem rd hr)),
      filter_and]
    apply List.filter_congr
    intro e _
    simp [List.all_cons]

/-- C2: the diagnostics batch update supersedes prior overlapping
diagnostics.  Under the sibling invariant on the tree's children and for
well-formed batch ranges over the shared comparator, the batch update equals:
drop every previously stored child matching some resolved range of the
batch, then insert each resolved range with its new diagnostic — so each new
finding overwrites everything it overlapped among the previously stored
diagnostics. -/
theorem batch_update_replaces_prior {T V : Type} (cmp : T → T → Int)
    (hA : CmpAntisym cmp) (hT : CmpTrans cmp)
    (t : RangeBinTree V T) (rds : List (Range T × V))
    (hinv : MapInv cmp t.children)
    (hwfr : ∀ rd ∈ rds, cmp rd.1.start rd.1.«end» ≤ 0) :
    batchUpdate t rds =
      RangeBinTree.mk t.range t.node
        (rds.foldl (fun cs rd => mapSet cs rd.1 (.mk rd.1 rd.2 []))
          (t.children.filter
            fun e => rds.all fun rd => !(matchesQ e.1 rd.1))) := by
  show rds.foldl (fun acc rd => acc.addChild rd.1 rd.2)
      (rds.foldl (fun acc rd => acc.removeIntersecting rd.1) t) = _
  rw [foldl_removeIntersecting_eq, foldl_addChild_eq,
    foldl_mapRemove_eq_filter hA hT rds t.children hinv hwfr]
  rfl

/-- The diagnostics root and prior child of the C2 scenario. -/
def c2Tree : RangeBinTree String Pos :=
  .mk (VSCodeRange ⟨0, 0⟩ ⟨1000000, 1000000⟩) "stub"
    [(VSCodeRange ⟨2, 0⟩ ⟨2, 5⟩,
      .mk (VSCodeRange ⟨2, 0⟩ ⟨2, 5⟩) "old finding" [])]

/-- Witness for C2 at the spec's end-to-end scenario: one prior diagnostic at
line 2 columns 0–5; a batch with one new finding at line 2 columns 3–8;
afterwards exactly one diagnostic remains, at columns 3–8, and the original
is gone. -/
theorem batch_update_replaces_prior_witness :
    MapInv posCmp c2Tree.children ∧
      (∀ rd ∈ [(VSCodeRange ⟨2, 3⟩ ⟨2, 8⟩, "new finding")],
        posCmp rd.1.start rd.1.«end» ≤ 0) ∧
      batchUpdate c2Tree [(VSCodeRange ⟨2, 3⟩ ⟨2, 8⟩, "new finding")] =
        RangeBinTree.mk c2Tree.range c2Tree.node
          ([(VSCodeRange ⟨2, 3⟩ ⟨2, 8⟩, "new finding")].foldl
            (fun cs rd => mapSet cs rd.1 (.mk rd.1 rd.2 []))
            (c2Tree.children.filter
              fun e => [(VSCodeRange ⟨2, 3⟩ ⟨2, 8⟩, "new finding")].all
                fun rd => !(matchesQ e.1 rd.1))) ∧
      ((batchUpdate c2Tree
          [(VSCodeRange ⟨2, 3⟩ ⟨2, 8⟩, "new finding")]).children.map
        fun e => (e.1.start, e.1.«end», e.2.node)) =
        [(⟨2, 3⟩, ⟨2, 8⟩, "new finding")] := by
  have hinv : MapInv posCmp c2Tree.children := by
    refine ⟨?_, ?_, ?_, ?_⟩
    · intro e he; fin_cases he <;> rfl
    · intro e he; fin_cases he <;> decide
    · unfold MapSorted; decide
    · unfold SiblingsDisjoint; decide
  refine ⟨hinv, by decide, ?_, by decide⟩
  exact batch_update_replaces_prior posCmp posCmp_antisym posCmp_trans
    c2Tree [(VSCodeRange ⟨2, 3⟩ ⟨2, 8⟩, "new finding")] hinv (by decide)

/-- Entries whose key compares equal to no batch range survive the whole
add phase. -/
lemma foldl_mapSet_preserves {T V : Type} :
    ∀ (rds : List (Range T × V)) (cs : List (Range T × RangeBinTree V T))
      (e : Range T × RangeBinTree V T), e ∈ cs →
      (∀ rd ∈ rds, Range.compare rd.1 e.1 ≠ 0) →
      e ∈ rds.foldl (fun cs rd => mapSet cs rd.1 (.mk rd.1 rd.2 [])) cs
  | [], _, _, he, _ => he
  | rd :: rds, cs, e, he, hne => by
    rw [List.foldl_cons]
    exact foldl_mapSet_preserves rds _ e
      (mapSet_mem_preserved he (hne rd (List.mem_cons_self rd rds)))
      fun r hr => hne r (List.mem_cons_of_mem rd hr)

/-- Every batch entry ends up as a child when no two batch ranges compare
equal. -/
lemma foldl_mapSet_mem {T V : Type} :
    ∀ (rds : List (Range T × V)) (cs : List (Range T × RangeBinTree V T)),
      (rds.Pairwise fun a b =>
        Range.compare a.1 b.1 ≠ 0 ∧ Range.compare b.1 a.1 ≠ 0) →
      ∀ rd ∈ rds,
        (rd.1, RangeBinTree.mk rd.1 rd.2 []) ∈
          rds.foldl (fun cs rd => mapSet cs rd.1 (.mk rd.1 rd.2 [])) cs
  | [], _, _, rd, hrd => by cases hrd
  | r :: rds, cs, hdist, rd, hrd => by
    rcases List.pairwise_cons.mp hdist with ⟨hr, hdist'⟩
    rcases List.mem_cons.mp hrd with rfl | hrd'
    · rw [List.foldl_cons]
      exact foldl_mapSet_preserves rds _ _ (mapSet_mem cs rd.1 _)
        fun r' hr' => (hr r' hr').2
    · rw [List.foldl_cons]
      exact foldl_mapSet_mem rds _ hdist' rd hrd'

/-- C10 (amended): the batch update performs every `removeIntersecting`
first and only afterwards every `addChild`, so supersession applies only
against diagnostics present before the batch; provided no two resolved
ranges of the batch compare equal, every finding of the batch — in
particular each of two findings whose ranges overlap each other — is
retained as a child when the batch completes. -/
theorem batch_removes_then_adds_and_retains_batch {T V : Type}
    (t : RangeBinTree V T) (rds : List (Range T × V))
    (hdist : rds.Pairwise fun a b =>
      Range.compare a.1 b.1 ≠ 0 ∧ Range.compare b.1 a.1 ≠ 0) :
    batchUpdate t rds =
        rds.foldl (fun acc rd => acc.addChild rd.1 rd.2)
          (rds.foldl (fun acc rd => acc.removeIntersecting rd.1) t) ∧
      ∀ rd ∈ rds,
        (rd.1, RangeBinTree.mk rd.1 rd.2 []) ∈ (batchUpdate t rds).children := by
  refine ⟨rfl, ?_⟩
  intro rd hrd
  show (rd.1, RangeBinTree.mk rd.1 rd.2 []) ∈
    (rds.foldl (fun acc rd => acc.addChild rd.1 rd.2)
      (rds.foldl (fun acc rd => acc.removeIntersecting rd.1) t)).children
  rw [foldl_addChild_eq]
  exact foldl_mapSet_mem rds _ hdist rd hrd

/-- C10 counterexample: two findings of the same batch whose ranges overlap
(they are identical: line 2, columns 0–5) are **not** both retained — the
later `addChild` overwrites the compare-equal key, so only the second
finding's diagnostic remains. -/
theorem batch_overwrites_compare_equal_ranges :
    matchesQ (VSCodeRange ⟨2, 0⟩ ⟨2, 5⟩) (VSCodeRange ⟨2, 0⟩ ⟨2, 5⟩) = true ∧
      ((batchUpdate
          (RangeBinTree.mk (VSCodeRange ⟨0, 0⟩ ⟨1000000, 1000000⟩) "stub" [])
          [(VSCodeRange ⟨2, 0⟩ ⟨2, 5⟩, "first finding"),
           (VSCodeRange ⟨2, 0⟩ ⟨2, 5⟩, "second finding")]).children.map
        fun e => (e.1.start, e.1.«end», e.2.node)) =
        [(⟨2, 0⟩, ⟨2, 5⟩, "second finding")] := by
  constructor
  · decide
  · decide

/-- Witness for C10: two overlapping but distinct batch ranges
(columns 0–5 and 3–8 of line 0) are both retained. -/
theorem batch_retains_batch_witness :
    ([(VSCodeRange ⟨0, 0⟩ ⟨0, 5⟩, "a"), (VSCodeRange ⟨0, 3⟩ ⟨0, 8⟩, "b")].Pairwise
        fun a b => Range.compare a.1 b.1 ≠ 0 ∧ Range.compare b.1 a.1 ≠ 0) ∧
      matchesQ (VSCodeRange ⟨0, 0⟩ ⟨0, 5⟩) (VSCodeRange ⟨0, 3⟩ ⟨0, 8⟩) = true ∧
      (∀ rd ∈ [(VSCodeRange ⟨0, 0⟩ ⟨0, 5⟩, "a"),
               (VSCodeRange ⟨0, 3⟩ ⟨0, 8⟩, "b")],
        (rd.1, RangeBinTree.mk rd.1 rd.2 []) ∈
          (batchUpdate
            (RangeBinTree.mk (VSCodeRange ⟨0, 0⟩ ⟨1000000, 1000000⟩) "stub" [])
            [(VSCodeRange ⟨0, 0⟩ ⟨0, 5⟩, "a"),
             (VSCodeRange ⟨0, 3⟩ ⟨0, 8⟩, "b")]).children) := by
  refine ⟨?_, by decide, ?_⟩
  · refine List.pairwise_cons.mpr ⟨?_, ?_⟩
    · intro b hb
      rcases List.mem_cons.mp hb with rfl | hb'
      · constructor <;> decide
      · cases hb'
    · exact List.pairwise_singleton _ _
  · exact (batch_removes_then_adds_and_retains_batch _ _
      (by
        refine List.pairwise_cons.mpr ⟨?_, ?_⟩
        · intro b hb
          rcases List.mem_cons.mp hb with rfl | hb'
          · constructor <;> decide
          · cases hb'
        · exact List.pairwise_singleton _ _)).2

lemma getLast?_cons_getD {α : Type} :
    ∀ (l : List α) (a : α), (a :: l).getLast? = some (l.getLast?.getD a)
  | [], _ => rfl
  | b :: t, a => by
    rw [List.getLast?_cons_cons, getLast?_cons_getD t b]
    rfl

/-- The loop of `findEnclosingBlock` computes, relative to a running result,
the parent-or-self of the deepest block node of the acceptance chain. -/
lemma febLoop_eq_chain {V R : Type} (parentOf : V → Option V)
    (isBlock : V → Bool) (childCount : V → Nat) (grab : Bool) (q : Range R) :
    ∀ (fuel : Nat) (l : List (RangeBinTree V R)) (acc : Option V),
      febLoop parentOf isBlock childCount grab q fuel l acc =
        match ((febChain childCount q fuel l).filter
            fun tn => isBlock tn.node).getLast? with
        | none => acc
        | some tn => if grab then parentOf tn.node else some tn.node
  | 0, l, acc => by cases l <;> rfl
  | fuel + 1, [], acc => rfl
  | fuel + 1, tn :: rest, acc => by
    show (if childCount tn.node == 0 || !(q.inside tn.range) then acc
        else febLoop parentOf isBlock childCount grab q fuel (tn.find q)
          (if isBlock tn.node then
            (if grab then parentOf tn.node else some tn.node) else acc)) =
      (match ((febChain childCount q (fuel + 1) (tn :: rest)).filter
          fun t => isBlock t.node).getLast? with
        | none => acc
        | some t => if grab then parentOf t.node else some t.node)
    have hchain : febChain childCount q (fuel + 1) (tn :: rest) =
        if childCount tn.node == 0 || !(q.inside tn.range) then []
        else tn :: febChain childCount q fuel (tn.find q) := rfl
    by_cases hguard : (childCount tn.node == 0 || !(q.inside tn.range)) = true
    · rw [if_pos hguard, hchain, if_pos hguard]
      rfl
    · rw [if_neg hguard, hchain, if_neg hguard,
        febLoop_eq_chain parentOf isBlock childCount grab q fuel (tn.find q),
        List.filter_cons]
      by_cases hb : isBlock tn.node = true
      · rw [if_pos (by simpa using hb), if_pos hb, getLast?_cons_getD]
        cases hlast : ((febChain childCount q fuel (tn.find q)).filter
            fun t => isBlock t.node).getLast? with
        | none => rfl
        | some c => rfl
      · rw [if_neg (by simpa using hb), if_neg hb]

/-- C5 (amended): enclosing-block lookup descends from the root by calling
`find` on the best match so far — the head of the previous `find` result —
while a result exists, the match still has children, and the query lies
inside the match's interval.  It does **not** stop at the first `'block'`
node: it records every block passed and keeps descending, finally returning
the deepest block of the descent chain — itself, or its parent under the
`grabParentBlock` flag (`none` when a block's parent is missing or no block
was reached). -/
theorem findEnclosingBlock_returns_deepest_block {V R : Type}
    (parentOf : V → Option V) (isBlock : V → Bool) (childCount : V → Nat)
    (fuel : Nat) (t : RangeBinTree V R) (q : Range R) (grab : Bool) :
    findEnclosingBlock parentOf isBlock childCount fuel t q grab =
      match ((febChain childCount q fuel (t.find q)).filter
          fun tn => isBlock tn.node).getLast? with
      | none => none
      | some tn => if grab then parentOf tn.node else some tn.node :=
  febLoop_eq_chain parentOf isBlock childCount grab q fuel (t.find q) none

/-- A model syntax node for the `findEnclosingBlock` counterexample. -/
structure TSNodeM where
  id : Nat
  ty : String
  childCount : Nat
deriving DecidableEq, Repr

/-- Root / outer block / inner block / leaf statement of the nested-block
example. -/
def nRoot : TSNodeM := ⟨0, "source_file", 1⟩

def nA : TSNodeM := ⟨1, "block", 1⟩

def nB : TSNodeM := ⟨2, "block", 1⟩

def nC : TSNodeM := ⟨3, "expr", 0⟩

/-- The tree-sitter parent pointers of the example. -/
def parentM (n : TSNodeM) : Option TSNodeM :=
  if n.id = 1 then some nRoot
  else if n.id = 2 then some nA
  else if n.id = 3 then some nB
  else none

/-- Tests `n.type === 'block'`. -/
def isBlockM (n : TSNodeM) : Bool := n.ty == "block"

/-- Reads `n.childCount`. -/
def childCountM (n : TSNodeM) : Nat := n.childCount

/-- Nested blocks: root `[0,20]` → block A `[0,10]` → block B `[2,8]` →
leaf `[3,4]`. -/
def c5Tree : RangeBinTree TSNodeM Int :=
  .mk (NumberRange 0 20) nRoot
    [(NumberRange 0 10, .mk (NumberRange 0 10) nA
       [(NumberRange 2 8, .mk (NumberRange 2 8) nB
          [(NumberRange 3 4, .mk (NumberRange 3 4) nC [])])])]

/-- C5 counterexample: on nested blocks A ⊃ B with query `[3,4]`, the first
block reached while descending is A, but `findEnclosingBlock` (grab-self
mode) keeps descending and returns B — it does not stop once a block is
reached. -/
theorem findEnclosingBlock_does_not_stop_at_first_block :
    findEnclosingBlock parentM isBlockM childCountM 10 c5Tree
        (NumberRange 3 4) false = some nB ∧
      ((febChain childCountM (NumberRange 3 4) 10
          (c5Tree.find (NumberRange 3 4))).filter
        fun tn => isBlockM tn.node).head?.map RangeBinTree.node = some nA ∧
      nA ≠ nB ∧
      findEnclosingBlock parentM isBlockM childCountM 10 c5Tree
        (NumberRange 3 4) true = some nA ∧
      parentM nA = some nRoot := by
  refine ⟨by decide, by decide, by decide, by decide, by decide⟩

/-! ### Unresolvable findings (C8) -/

/-- A fold that skips `none` entries is unchanged by removing a `none`. -/
lemma foldl_skip_none {γ δ : Type} (h : γ → Option δ → γ)
    (hnone : ∀ a, h a none = a) (xs ys : List (Option δ)) (init : γ) :
    (xs ++ none :: ys).foldl h init = (xs ++ ys).foldl h init := by
  rw [List.foldl_append, List.foldl_append, List.foldl_cons, hnone]

/-- C8: a finding whose reported snippet does not occur verbatim in the text
of its reported line yields no diagnostic range, and processing a batch with
it is the same as processing the batch without it — every other finding is
resolved and applied unaffected. -/
theorem unresolved_finding_dropped (lines : List String)
    (t : RangeBinTree String Pos) (fs1 fs2 : List Finding) (f : Finding)
    (h : strIndexOf (lineTextOf lines (f.line - 1)) f.snippet = none) :
    resolveFinding lines f = none ∧
      batchProcess lines t (fs1 ++ f :: fs2) =
        batchProcess lines t (fs1 ++ fs2) := by
  have hres : resolveFinding lines f = none := by
    simp only [resolveFinding, h]
  refine ⟨hres, ?_⟩
  unfold batchProcess
  rw [List.map_append, List.map_append, List.map_cons, hres]
  show (fs1.map _ ++ none :: fs2.map _).foldl _
      ((fs1.map _ ++ none :: fs2.map _).foldl _ t) = _
  rw [foldl_skip_none _ (fun a => rfl), foldl_skip_none _ (fun a => rfl)]
  rfl

/-- The empty diagnostics root of the C8 witness. -/
def c8Tree : RangeBinTree String Pos :=
  .mk (VSCodeRange ⟨0, 0⟩ ⟨1000000, 1000000⟩) "stub" []

/-- Witness for C8: in a batch with a resolvable finding (snippet `x` on
line 2) and an unresolvable one (snippet `zzz`, nowhere on line 2), the
unresolvable finding is dropped and the other one is applied. -/
theorem unresolved_finding_dropped_witness :
    strIndexOf (lineTextOf ["func a()", "x := 1"]
        ((⟨2, "zzz", "bogus"⟩ : Finding).line - 1))
      (⟨2, "zzz", "bogus"⟩ : Finding).snippet = none ∧
      resolveFinding ["func a()", "x := 1"] ⟨2, "zzz", "bogus"⟩ = none ∧
      batchProcess ["func a()", "x := 1"] c8Tree
          [⟨2, "x", "d1"⟩, ⟨2, "zzz", "bogus"⟩] =
        batchProcess ["func a()", "x := 1"] c8Tree [⟨2, "x", "d1"⟩] ∧
      ((batchProcess ["func a()", "x := 1"] c8Tree
          [⟨2, "x", "d1"⟩, ⟨2, "zzz", "bogus"⟩]).children.map
        fun e => (e.1.start, e.1.«end», e.2.node)) =
        [(⟨1, 0⟩, ⟨1, 1⟩, "d1")] := by
  have h := unresolved_finding_dropped ["func a()", "x := 1"] c8Tree
    [⟨2, "x", "d1"⟩] [] ⟨2, "zzz", "bogus"⟩ (by decide)
  refine ⟨by decide, h.1, by simpa using h.2, by decide⟩
